import Mathlib

/-!
# go-wikidata: the polymorphic value decoder and the label accessors

A shallow embedding of `models.go`:

* `DynamicDataValue.UnmarshalJSON`, which classifies a raw JSON token as a string, an
  integer or a `DataValueFields` object;
* `Entity.GetLabel` and `Entity.GetDescription`.

`UnmarshalJSON` calls two functions of the Go standard library, `strconv.Atoi` and
`json.Unmarshal`.  Both are embedded here as executable definitions following the behaviour
of the library (`strconv/atoi.go`, `encoding/json/scanner.go`, `encoding/json/decode.go`).

Conventions.  A Go `string` and a Go `[]byte` are both `List UInt8`.  A Go `int` is an `Int`
together with the range check of a 64-bit platform (`intSize = 64`).  A Go `float64` is the
binary64 datum, sign, significand and exponent, and `strconv.ParseFloat` rounds a decimal
literal to the nearest one, ties to even.  A Go run-time panic is an explicit outcome,
distinct from a returned error.
-/

set_option autoImplicit false

namespace GoWikidata

/-! ## Bytes and strings -/

/-- A Go string: an immutable sequence of bytes. -/
abbrev GoString := List UInt8

/-- The bytes of an ASCII literal, used to write Go string constants. -/
def bytes (s : String) : GoString := s.toList.map (fun c => UInt8.ofNat c.toNat)

/-- The quote character. -/
def quote : UInt8 := 0x22

/-- Indexing `s[i]`: `none` stands for the run-time panic "index out of range". -/
def goIndex (s : GoString) (i : Int) : Option UInt8 :=
  if i < 0 then none else s.get? i.toNat

/-- Slicing `s[lo:hi]`: `none` stands for the run-time panic "slice bounds out of range". -/
def goSlice (s : GoString) (lo hi : Int) : Option GoString :=
  if 0 ≤ lo ∧ lo ≤ hi ∧ hi ≤ (s.length : Int) then
    some ((s.drop lo.toNat).take (hi.toNat - lo.toNat))
  else none

/-! ## strconv -/

deriving instance DecidableEq for Except

/-- The width of a Go `int` (`strconv.IntSize`) on a 64-bit platform. -/
def intSize : Nat := 64

/-- The two errors of `strconv`: `ErrSyntax` and `ErrRange`. -/
inductive NumError where
  | errSyntax
  | errRange
  deriving DecidableEq, Repr

/-- Whether the byte is an ASCII decimal digit. -/
def isDigit (c : UInt8) : Bool := decide (48 ≤ c.toNat ∧ c.toNat ≤ 57)

/-- The value of a decimal digit (`c - '0'`). -/
def digitVal (c : UInt8) : Nat := c.toNat - 48

/-- The digit loop of `strconv.ParseUint(s, 10, bitSize)`: `n = n*10 + d`, with a syntax
error at the first byte that is not a decimal digit and a range error as soon as the
accumulated value exceeds `2^bitSize - 1`. -/
def parseUintLoop (bitSize : Nat) : List UInt8 → Nat → Except NumError Nat
  | [], n => .ok n
  | c :: cs, n =>
    if isDigit c then
      if n * 10 + digitVal c < 2 ^ bitSize then parseUintLoop bitSize cs (n * 10 + digitVal c)
      else .error .errRange
    else .error .errSyntax

/-- The function `strconv.ParseUint(s, 10, bitSize)`. -/
def ParseUint (s : GoString) (bitSize : Nat) : Except NumError Nat :=
  match s with
  | [] => .error .errSyntax
  | _ :: _ => parseUintLoop bitSize s 0

/-- The function `strconv.ParseInt(s, 10, bitSize)`: an optional sign, then `ParseUint`, then
the cutoff `2^(bitSize-1)`. -/
def ParseInt (s : GoString) (bitSize : Nat) : Except NumError Int :=
  match s with
  | [] => .error .errSyntax
  | c :: cs =>
    let neg := decide (c = 0x2D)
    let body := if c = 0x2B ∨ c = 0x2D then cs else s
    match ParseUint body bitSize with
    | .error e => .error e
    | .ok un =>
      let cutoff := 2 ^ (bitSize - 1)
      if !neg && decide (cutoff ≤ un) then .error .errRange
      else if neg && decide (cutoff < un) then .error .errRange
      else .ok (if neg then -(un : Int) else (un : Int))

/-- The function `strconv.Atoi(s)`: base-10 `ParseInt` at the width of `int` (the library's
fast path for short inputs computes the same result). -/
def Atoi (s : GoString) : Except NumError Int := ParseInt s intSize

/-! ## encoding/json: the scanner -/

/-- The function `isSpace` of the scanner: space, tab, carriage return, line feed. -/
def isSpace (c : UInt8) : Bool := c = 0x20 || c = 0x09 || c = 0x0D || c = 0x0A

/-- Skips the white space in front of the next token (`scanSkipSpace`). -/
def skipSpace : List UInt8 → List UInt8
  | [] => []
  | c :: cs => if isSpace c then skipSpace cs else c :: cs

/-- Whether the byte is a hexadecimal digit. -/
def isHex (c : UInt8) : Bool :=
  decide ((48 ≤ c.toNat ∧ c.toNat ≤ 57) ∨ (97 ≤ c.toNat ∧ c.toNat ≤ 102) ∨
    (65 ≤ c.toNat ∧ c.toNat ≤ 70))

/-- The escapes of `stateInStringEsc` other than `\u`: `b f n r t \ / "`. -/
def isSimpleEscape (c : UInt8) : Bool :=
  c = 0x62 || c = 0x66 || c = 0x6E || c = 0x72 || c = 0x74 || c = 0x5C || c = 0x2F || c = 0x22

/-- The states of the scanner inside a string literal: `stateInString`, `stateInStringEsc`,
and `stateInStringEscU`, `...U1`, `...U12`, `...U123` as `hex n` with `n` the number of
hexadecimal digits read so far. -/
inductive StringState where
  | inString
  | esc
  | hex (n : Nat)
  deriving DecidableEq, Repr

/-- The scanner inside a string literal, started in state `st`: the raw bytes up to the
closing quote, and the bytes that follow it.  `none` is a syntax error. -/
def scanStringFrom : StringState → List UInt8 → Option (List UInt8 × List UInt8)
  | _, [] => none
  | .inString, c :: cs =>
    if c = 0x22 then some ([], cs)
    else if c = 0x5C then (scanStringFrom .esc cs).map (fun p => (c :: p.1, p.2))
    else if c.toNat < 0x20 then none
    else (scanStringFrom .inString cs).map (fun p => (c :: p.1, p.2))
  | .esc, c :: cs =>
    if isSimpleEscape c then (scanStringFrom .inString cs).map (fun p => (c :: p.1, p.2))
    else if c = 0x75 then (scanStringFrom (.hex 0) cs).map (fun p => (c :: p.1, p.2))
    else none
  | .hex n, c :: cs =>
    if isHex c then
      (scanStringFrom (if n < 3 then .hex (n + 1) else .inString) cs).map
        (fun p => (c :: p.1, p.2))
    else none

/-- The string states of the scanner, entered after the opening quote. -/
def scanString (bs : List UInt8) : Option (List UInt8 × List UInt8) :=
  scanStringFrom .inString bs

/-- The exponent states of the scanner (`stateE`, `stateESign`, `stateE0`), with the bytes
of the literal read so far. -/
def scanExponent (acc : List UInt8) (bs : List UInt8) : Option (List UInt8 × List UInt8) :=
  match bs with
  | e :: r1 =>
    if e = 0x65 ∨ e = 0x45 then
      let signed := match r1 with
        | s :: r2 => if s = 0x2B ∨ s = 0x2D then ([s], r2) else ([], r1)
        | [] => ([], r1)
      let ds := signed.2.span isDigit
      if ds.1 = [] then none else some (acc ++ e :: signed.1 ++ ds.1, ds.2)
    else some (acc, bs)
  | [] => some (acc, bs)

/-- The fraction states of the scanner (`stateDot`, `stateDot0`), followed by the exponent. -/
def scanFraction (acc : List UInt8) (bs : List UInt8) : Option (List UInt8 × List UInt8) :=
  match bs with
  | p :: r1 =>
    if p = 0x2E then
      let ds := r1.span isDigit
      if ds.1 = [] then none else scanExponent (acc ++ p :: ds.1) ds.2
    else scanExponent acc bs
  | [] => some (acc, bs)

/-- The number states of the scanner (`stateNeg`, `state0`, `state1`, ...): the bytes of the
numeric literal and the bytes that follow it.  `none` is a syntax error. -/
def scanNumber (bs : List UInt8) : Option (List UInt8 × List UInt8) :=
  let signed := match bs with
    | s :: r => if s = 0x2D then ([s], r) else ([], bs)
    | [] => ([], bs)
  match signed.2 with
  | [] => none
  | c :: cs =>
    if c = 0x30 then scanFraction (signed.1 ++ [c]) cs
    else if isDigit c then
      let ds := cs.span isDigit
      scanFraction (signed.1 ++ c :: ds.1) ds.2
    else none

/-- Removes the prefix `p` from `bs`, when `bs` starts with it. -/
def stripPrefix : List UInt8 → List UInt8 → Option (List UInt8)
  | [], bs => some bs
  | _ :: _, [] => none
  | p :: ps, c :: cs => if p = c then stripPrefix ps cs else none

/-! ## encoding/json: unquoting a string literal -/

/-- The value of a hexadecimal digit, as in `getu4`. -/
def hexVal (c : UInt8) : Option Nat :=
  if 48 ≤ c.toNat ∧ c.toNat ≤ 57 then some (c.toNat - 48)
  else if 97 ≤ c.toNat ∧ c.toNat ≤ 102 then some (c.toNat - 87)
  else if 65 ≤ c.toNat ∧ c.toNat ≤ 70 then some (c.toNat - 55)
  else none

/-- The four hexadecimal digits of a `\u` escape, as a code unit. -/
def hex4 (h1 h2 h3 h4 : UInt8) : Option Nat :=
  match hexVal h1, hexVal h2, hexVal h3, hexVal h4 with
  | some a, some b, some c, some d => some (((a * 16 + b) * 16 + c) * 16 + d)
  | _, _, _, _ => none

/-- The function `getu4`: the code unit of the `\uXXXX` escape at the head of `s`, `none`
(the library's `-1`) when `s` does not start with one. -/
def getu4 (s : List UInt8) : Option Nat :=
  match s with
  | b :: u :: h1 :: h2 :: h3 :: h4 :: _ => if b = 0x5C ∧ u = 0x75 then hex4 h1 h2 h3 h4 else none
  | _ => none

/-- The UTF-8 encoding of `unicode.ReplacementChar` (U+FFFD). -/
def replacementChar : List UInt8 := [0xEF, 0xBF, 0xBD]

/-- The function `utf8.EncodeRune`. -/
def encodeRune (r : Nat) : List UInt8 :=
  if r ≤ 0x7F then [UInt8.ofNat r]
  else if r ≤ 0x7FF then [UInt8.ofNat (0xC0 + r / 64), UInt8.ofNat (0x80 + r % 64)]
  else if 0x10FFFF < r ∨ (0xD800 ≤ r ∧ r ≤ 0xDFFF) then replacementChar
  else if r ≤ 0xFFFF then
    [UInt8.ofNat (0xE0 + r / 4096), UInt8.ofNat (0x80 + r / 64 % 64), UInt8.ofNat (0x80 + r % 64)]
  else
    [UInt8.ofNat (0xF0 + r / 262144), UInt8.ofNat (0x80 + r / 4096 % 64),
      UInt8.ofNat (0x80 + r / 64 % 64), UInt8.ofNat (0x80 + r % 64)]

/-- The function `utf16.IsSurrogate`. -/
def isSurrogate (r : Nat) : Bool := decide (0xD800 ≤ r ∧ r < 0xE000)

/-- The function `utf16.DecodeRune`: the code point of a valid surrogate pair. -/
def decodeSurrogates (r1 r2 : Nat) : Option Nat :=
  if 0xD800 ≤ r1 ∧ r1 < 0xDC00 ∧ 0xDC00 ≤ r2 ∧ r2 < 0xE000 then
    some ((r1 - 0xD800) * 1024 + (r2 - 0xDC00) + 0x10000)
  else none

/-- The table `first` of `unicode/utf8` for a lead byte of a multi-byte sequence: the length
of the sequence and the range accepted for its second byte. -/
def utf8Lead (c : UInt8) : Option (Nat × Nat × Nat) :=
  let n := c.toNat
  if 0xC2 ≤ n ∧ n ≤ 0xDF then some (2, 0x80, 0xBF)
  else if n = 0xE0 then some (3, 0xA0, 0xBF)
  else if (0xE1 ≤ n ∧ n ≤ 0xEC) ∨ n = 0xEE ∨ n = 0xEF then some (3, 0x80, 0xBF)
  else if n = 0xED then some (3, 0x80, 0x9F)
  else if n = 0xF0 then some (4, 0x90, 0xBF)
  else if 0xF1 ≤ n ∧ n ≤ 0xF3 then some (4, 0x80, 0xBF)
  else if n = 0xF4 then some (4, 0x80, 0x8F)
  else none

/-- Whether the byte is a UTF-8 continuation byte. -/
def isCont (c : UInt8) : Bool := decide (0x80 ≤ c.toNat ∧ c.toNat ≤ 0xBF)

/-- The size reported by `utf8.DecodeRune` for a well-formed sequence starting with the
non-ASCII byte `c` and continuing in `cs`; `0` when the function reports `RuneError` with
width 1. -/
def utf8Width (c : UInt8) (cs : List UInt8) : Nat :=
  match utf8Lead c with
  | none => 0
  | some (sz, lo, hi) =>
    if cs.length + 1 < sz then 0
    else
      match cs with
      | [] => 0
      | b1 :: r1 =>
        if b1.toNat < lo ∨ hi < b1.toNat then 0
        else if sz ≤ 2 then 2
        else
          match r1 with
          | [] => 0
          | b2 :: r2 =>
            if !isCont b2 then 0
            else if sz ≤ 3 then 3
            else
              match r2 with
              | [] => 0
              | b3 :: _ => if !isCont b3 then 0 else 4

/-- The byte an escape letter stands for, in `unquoteBytes`. -/
def unescape (e : UInt8) : Option UInt8 :=
  if e = 0x22 ∨ e = 0x5C ∨ e = 0x2F ∨ e = 0x27 then some e
  else if e = 0x62 then some 0x08
  else if e = 0x66 then some 0x0C
  else if e = 0x6E then some 0x0A
  else if e = 0x72 then some 0x0D
  else if e = 0x74 then some 0x09
  else none

/-- The loop of `unquoteBytes`, on the bytes between the two quotes of a string literal.
The counter `n` is the number of bytes the read index still has to advance over without
interpreting them: bytes of a well-formed UTF-8 sequence, which are copied (`keep = true`),
or the second escape of a surrogate pair, which is dropped (`keep = false`). -/
def unquoteFrom (keep : Bool) : Nat → List UInt8 → Option (List UInt8)
  | _, [] => some []
  | n + 1, c :: cs =>
    if keep then (unquoteFrom keep n cs).map (fun t => c :: t) else unquoteFrom keep n cs
  | 0, c :: cs =>
    if c = 0x5C then
      match cs with
      | [] => none
      | e :: cs1 =>
        if e = 0x75 then
          match cs1 with
          | h1 :: h2 :: h3 :: h4 :: cs2 =>
            match hex4 h1 h2 h3 h4 with
            | none => none
            | some rr =>
              if isSurrogate rr then
                match (getu4 cs2).bind (decodeSurrogates rr) with
                | some dec => (unquoteFrom false 6 cs2).map (fun t => encodeRune dec ++ t)
                | none => (unquoteFrom keep 0 cs2).map (fun t => replacementChar ++ t)
              else (unquoteFrom keep 0 cs2).map (fun t => encodeRune rr ++ t)
          | _ => none
        else
          match unescape e with
          | some x => (unquoteFrom keep 0 cs1).map (fun t => x :: t)
          | none => none
    else if c = 0x22 ∨ c.toNat < 0x20 then none
    else if c.toNat < 0x80 then (unquoteFrom keep 0 cs).map (fun t => c :: t)
    else if utf8Width c cs = 0 then (unquoteFrom keep 0 cs).map (fun t => replacementChar ++ t)
    else (unquoteFrom true (utf8Width c cs - 1) cs).map (fun t => c :: t)

/-- The function `unquoteBytes`, on the bytes between the two quotes of a string literal:
escapes are replaced by what they stand for, a `\u` escape by the UTF-8 encoding of its code
point (a surrogate pair by one code point, a lone surrogate by U+FFFD), and every byte that
is not part of well-formed UTF-8 by U+FFFD.  `none` is the library's `ok = false`. -/
def unquote (s : List UInt8) : Option (List UInt8) := unquoteFrom true 0 s

/-! ## encoding/json: the grammar accepted by `checkValid` -/

/-- A JSON value as the decoder sees it: a string carries its unquoted bytes, a number the
bytes of its literal. -/
inductive JValue where
  | null
  | bool (b : Bool)
  | number (lit : GoString)
  | string (s : GoString)
  | array (elems : List JValue)
  | object (members : List (GoString × JValue))

/-- The constant `maxNestingDepth` of the scanner. -/
def maxNestingDepth : Nat := 10000

/-- The result of reading one syntactic unit: the unit and the bytes after it, a syntax
error, or an exhausted recursion budget. -/
inductive Parsed (α : Type) where
  | ok (value : α) (rest : List UInt8)
  | syntaxError
  | outOfFuel

/-- Reads a string literal whose opening quote has been consumed, and unquotes it.  In the
library `unquoteBytes` cannot fail on a literal the scanner has accepted (the decoder would
panic); the same holds here (`parseString_ok_of_scan`), so the second `syntaxError` is
never produced. -/
def parseString (bs : List UInt8) : Parsed GoString :=
  match scanString bs with
  | none => .syntaxError
  | some (raw, rest) =>
    match unquote raw with
    | some s => .ok s rest
    | none => .syntaxError

mutual

/-- Reads one value (`stateBeginValue`); `bs` starts at its first byte, `depth` is the
number of arrays and objects open around it. -/
def parseValue : Nat → Nat → List UInt8 → Parsed JValue
  | 0, _, _ => .outOfFuel
  | fuel + 1, depth, bs =>
    match bs with
    | [] => .syntaxError
    | c :: cs =>
      if c = 0x7B then
        if maxNestingDepth < depth + 1 then .syntaxError
        else
          match skipSpace cs with
          | [] => .syntaxError
          | k :: ks =>
            if k = 0x7D then .ok (.object []) ks
            else
              match parseMembers fuel (depth + 1) (k :: ks) with
              | .ok ms rest => .ok (.object ms) rest
              | .syntaxError => .syntaxError
              | .outOfFuel => .outOfFuel
      else if c = 0x5B then
        if maxNestingDepth < depth + 1 then .syntaxError
        else
          match skipSpace cs with
          | [] => .syntaxError
          | k :: ks =>
            if k = 0x5D then .ok (.array []) ks
            else
              match parseElems fuel (depth + 1) (k :: ks) with
              | .ok es rest => .ok (.array es) rest
              | .syntaxError => .syntaxError
              | .outOfFuel => .outOfFuel
      else if c = 0x22 then
        match parseString cs with
        | .ok s rest => .ok (.string s) rest
        | .syntaxError => .syntaxError
        | .outOfFuel => .outOfFuel
      else if c = 0x2D ∨ isDigit c then
        match scanNumber bs with
        | some (lit, rest) => .ok (.number lit) rest
        | none => .syntaxError
      else if c = 0x74 then
        match stripPrefix [0x72, 0x75, 0x65] cs with
        | some rest => .ok (.bool true) rest
        | none => .syntaxError
      else if c = 0x66 then
        match stripPrefix [0x61, 0x6C, 0x73, 0x65] cs with
        | some rest => .ok (.bool false) rest
        | none => .syntaxError
      else if c = 0x6E then
        match stripPrefix [0x75, 0x6C, 0x6C] cs with
        | some rest => .ok .null rest
        | none => .syntaxError
      else .syntaxError

/-- Reads the elements of a non-empty array up to and including the closing bracket; `bs`
starts at the first byte of an element. -/
def parseElems : Nat → Nat → List UInt8 → Parsed (List JValue)
  | 0, _, _ => .outOfFuel
  | fuel + 1, depth, bs =>
    match parseValue fuel depth bs with
    | .syntaxError => .syntaxError
    | .outOfFuel => .outOfFuel
    | .ok v rest =>
      match skipSpace rest with
      | [] => .syntaxError
      | k :: ks =>
        if k = 0x2C then
          match parseElems fuel depth (skipSpace ks) with
          | .ok es rest1 => .ok (v :: es) rest1
          | .syntaxError => .syntaxError
          | .outOfFuel => .outOfFuel
        else if k = 0x5D then .ok [v] ks
        else .syntaxError

/-- Reads the members of a non-empty object up to and including the closing brace; `bs`
starts at the byte where a key is expected. -/
def parseMembers : Nat → Nat → List UInt8 → Parsed (List (GoString × JValue))
  | 0, _, _ => .outOfFuel
  | fuel + 1, depth, bs =>
    match bs with
    | [] => .syntaxError
    | q :: cs =>
      if q = 0x22 then
        match parseString cs with
        | .syntaxError => .syntaxError
        | .outOfFuel => .outOfFuel
        | .ok key rest =>
          match skipSpace rest with
          | [] => .syntaxError
          | k :: ks =>
            if k = 0x3A then
              match parseValue fuel depth (skipSpace ks) with
              | .syntaxError => .syntaxError
              | .outOfFuel => .outOfFuel
              | .ok v rest1 =>
                match skipSpace rest1 with
                | [] => .syntaxError
                | t :: ts =>
                  if t = 0x2C then
                    match parseMembers fuel depth (skipSpace ts) with
                    | .ok ms rest2 => .ok ((key, v) :: ms) rest2
                    | .syntaxError => .syntaxError
                    | .outOfFuel => .outOfFuel
                  else if t = 0x7D then .ok [(key, v)] ts
                  else .syntaxError
            else .syntaxError
      else .syntaxError

end

/-- The error `*json.SyntaxError`. -/
structure SyntaxError where
  deriving DecidableEq, Repr

/-- The function `checkValid` together with the value it has recognised: the whole input
must be one JSON value surrounded by optional white space.  The recursion budget, twice
the length of the input plus one, is never exhausted (`parseJSON_fuel`). -/
def parseJSON (b : List UInt8) : Except SyntaxError JValue :=
  match parseValue (2 * b.length + 1) 0 (skipSpace b) with
  | .ok v rest => if skipSpace rest = [] then .ok v else .error {}
  | .syntaxError => .error {}
  | .outOfFuel => .error {}

/-! ## The structured value `DataValueFields` -/

/-- A Go `float64` that is neither an infinity nor a NaN: the binary64 datum
`(-1)^neg * mant * 2^exp` in the canonical form of the format, in which `mant < 2^53`,
`-1074 ≤ exp ≤ 971`, and `2^52 ≤ mant` unless `exp = -1074` (a subnormal number or a
zero).  Two values of this type are equal exactly when `math.Float64bits` gives the same
bits; the two zeros are different data, which Go's `==` treats as equal (`Float64.eq`). -/
structure Float64 where
  neg : Bool
  mant : Nat
  exp : Int
  deriving DecidableEq, Repr

/-- The zero value of `float64`, positive zero. -/
def Float64.zero : Float64 := ⟨false, 0, -1074⟩

/-- The operator `==` of Go on two such values: the same datum, or two zeros. -/
def Float64.eq (x y : Float64) : Bool :=
  decide (x = y) || (decide (x.mant = 0) && decide (y.mant = 0))

/-- The struct `DataValueFields`. -/
structure DataValueFields where
  EntityType : GoString
  NumericID : Int
  ID : GoString
  Type_ : GoString
  Value : GoString
  Time : GoString
  Precision : Float64
  Before : Int
  After : Int
  TimeZone : Int
  CalendarModel : GoString
  Latitude : Float64
  Longitude : Float64
  Globe : GoString
  Amount : GoString
  LowerBound : GoString
  UpperBound : GoString
  Unit : GoString
  Text : GoString
  Language : GoString
  deriving DecidableEq, Repr

/-- The zero value `DataValueFields{}`. -/
def DataValueFields.zero : DataValueFields :=
  { EntityType := [], NumericID := 0, ID := [], Type_ := [], Value := [], Time := [],
    Precision := Float64.zero, Before := 0, After := 0, TimeZone := 0, CalendarModel := [],
    Latitude := Float64.zero, Longitude := Float64.zero, Globe := [], Amount := [],
    LowerBound := [], UpperBound := [], Unit := [], Text := [], Language := [] }

/-- The operator `==` of Go on two `DataValueFields`: field by field, with `==` of
`float64` on the three float fields. -/
def DataValueFields.eq (a b : DataValueFields) : Bool :=
  decide ({ a with Precision := Float64.zero, Latitude := Float64.zero,
                   Longitude := Float64.zero } =
          { b with Precision := Float64.zero, Latitude := Float64.zero,
                   Longitude := Float64.zero }) &&
    Float64.eq a.Precision b.Precision && Float64.eq a.Latitude b.Latitude &&
    Float64.eq a.Longitude b.Longitude

/-- The fields of `DataValueFields`, in declaration order. -/
inductive Field where
  | entityType | numericID | id | type | value | time | precision | before | after
  | timeZone | calendarModel | latitude | longitude | globe | amount | lowerBound
  | upperBound | unit | text | language
  deriving DecidableEq, Repr

/-- The declared scalar type of a field. -/
inductive FieldKind where
  | string
  | int
  | float64
  deriving DecidableEq, Repr

/-- All fields, in declaration order. -/
def Field.all : List Field :=
  [.entityType, .numericID, .id, .type, .value, .time, .precision, .before, .after,
   .timeZone, .calendarModel, .latitude, .longitude, .globe, .amount, .lowerBound,
   .upperBound, .unit, .text, .language]

/-- The JSON name of a field, from its struct tag. -/
def Field.name : Field → GoString
  | .entityType => bytes "entity-type"
  | .numericID => bytes "numeric-id"
  | .id => bytes "id"
  | .type => bytes "type"
  | .value => bytes "value"
  | .time => bytes "time"
  | .precision => bytes "precision"
  | .before => bytes "before"
  | .after => bytes "after"
  | .timeZone => bytes "timezone"
  | .calendarModel => bytes "calendarmodel"
  | .latitude => bytes "latitude"
  | .longitude => bytes "longitude"
  | .globe => bytes "globe"
  | .amount => bytes "amount"
  | .lowerBound => bytes "lowerbound"
  | .upperBound => bytes "upperbound"
  | .unit => bytes "unit"
  | .text => bytes "text"
  | .language => bytes "language"

/-- The Go type of a field. -/
def Field.kind : Field → FieldKind
  | .numericID | .before | .after | .timeZone => .int
  | .precision | .latitude | .longitude => .float64
  | _ => .string

/-- The content of one field. -/
inductive FieldValue where
  | str (s : GoString)
  | int (i : Int)
  | float (x : Float64)
  deriving DecidableEq, Repr

/-- Reads a field. -/
def DataValueFields.get (v : DataValueFields) : Field → FieldValue
  | .entityType => .str v.EntityType
  | .numericID => .int v.NumericID
  | .id => .str v.ID
  | .type => .str v.Type_
  | .value => .str v.Value
  | .time => .str v.Time
  | .precision => .float v.Precision
  | .before => .int v.Before
  | .after => .int v.After
  | .timeZone => .int v.TimeZone
  | .calendarModel => .str v.CalendarModel
  | .latitude => .float v.Latitude
  | .longitude => .float v.Longitude
  | .globe => .str v.Globe
  | .amount => .str v.Amount
  | .lowerBound => .str v.LowerBound
  | .upperBound => .str v.UpperBound
  | .unit => .str v.Unit
  | .text => .str v.Text
  | .language => .str v.Language

/-- The function `reflect.Value.SetString` on a field of kind string. -/
def DataValueFields.setString (v : DataValueFields) (f : Field) (s : GoString) :
    DataValueFields :=
  match f with
  | .entityType => { v with EntityType := s }
  | .id => { v with ID := s }
  | .type => { v with Type_ := s }
  | .value => { v with Value := s }
  | .time => { v with Time := s }
  | .calendarModel => { v with CalendarModel := s }
  | .globe => { v with Globe := s }
  | .amount => { v with Amount := s }
  | .lowerBound => { v with LowerBound := s }
  | .upperBound => { v with UpperBound := s }
  | .unit => { v with Unit := s }
  | .text => { v with Text := s }
  | .language => { v with Language := s }
  | _ => v

/-- The function `reflect.Value.SetInt` on a field of kind int. -/
def DataValueFields.setInt (v : DataValueFields) (f : Field) (i : Int) : DataValueFields :=
  match f with
  | .numericID => { v with NumericID := i }
  | .before => { v with Before := i }
  | .after => { v with After := i }
  | .timeZone => { v with TimeZone := i }
  | _ => v

/-- The function `reflect.Value.SetFloat` on a field of kind float64. -/
def DataValueFields.setFloat (v : DataValueFields) (f : Field) (x : Float64) :
    DataValueFields :=
  match f with
  | .precision => { v with Precision := x }
  | .latitude => { v with Latitude := x }
  | .longitude => { v with Longitude := x }
  | _ => v

/-! ## encoding/json: decoding into `DataValueFields` -/

/-- The loop of `foldName`; `skip` counts the remaining bytes of a multi-byte rune that has
already been folded. -/
def foldNameFrom : Nat → List UInt8 → List UInt8
  | _, [] => []
  | skip + 1, _ :: cs => foldNameFrom skip cs
  | 0, c :: cs =>
    if 97 ≤ c.toNat ∧ c.toNat ≤ 122 then UInt8.ofNat (c.toNat - 32) :: foldNameFrom 0 cs
    else if c = 0xC5 ∧ cs.take 1 = [0xBF] then 0x53 :: foldNameFrom 1 cs
    else if c = 0xE2 ∧ cs.take 2 = [0x84, 0xAA] then 0x4B :: foldNameFrom 2 cs
    else c :: foldNameFrom 0 cs

/-- The function `foldName`, as far as it matters for names made of ASCII bytes: ASCII
letters are upper-cased, and the two non-ASCII runes whose simple case folding is an ASCII
letter, U+017F (long s) and U+212A (Kelvin sign), become `S` and `K`. -/
def foldName (s : List UInt8) : List UInt8 := foldNameFrom 0 s

/-- The field an object key is decoded into: the field with exactly that name, otherwise
the first field whose name matches it under case folding. -/
def findField (key : GoString) : Option Field :=
  match Field.all.find? (fun f => decide (f.name = key)) with
  | some f => some f
  | none => Field.all.find? (fun f => decide (foldName f.name = foldName key))

/-- The errors `json.Unmarshal` returns: a `*SyntaxError`, or an `*UnmarshalTypeError` with
its description `Value` of the offending JSON value. -/
inductive JSONError where
  | syntaxError
  | unmarshalTypeError (value : GoString)
  deriving DecidableEq, Repr

/-- The decimal value of a list of digits. -/
def digitsValue (ds : List UInt8) : Nat := ds.foldl (fun n c => n * 10 + digitVal c) 0

/-- The magnitude of a JSON numeric literal as a fraction `num / den`: the digits of the
integer and fraction parts, scaled by the power of ten of the exponent part. -/
def decimalFraction (lit : GoString) : Nat × Nat :=
  let body := match lit with
    | c :: cs => if c = 0x2D then cs else lit
    | [] => lit
  let ip := body.span isDigit
  let fp := match ip.2 with
    | c :: cs => if c = 0x2E then cs.span isDigit else ([], ip.2)
    | [] => ([], ip.2)
  let ex : Int := match fp.2 with
    | _ :: s :: ds =>
      if s = 0x2D then -(digitsValue ds : Int)
      else if s = 0x2B then (digitsValue ds : Int)
      else (digitsValue (s :: ds) : Int)
    | _ => 0
  let mant := digitsValue (ip.1 ++ fp.1)
  let e10 := ex - (fp.1.length : Int)
  if 0 ≤ e10 then (mant * 10 ^ e10.toNat, 1) else (mant, 10 ^ (-e10).toNat)

/-- The integer nearest to `n / d`, the even one of the two when `n / d` lies halfway
between two integers (IEEE 754 round to nearest, ties to even). -/
def roundHalfEven (n d : Nat) : Nat :=
  if d < 2 * (n % d) ∨ (2 * (n % d) = d ∧ n / d % 2 = 1) then n / d + 1 else n / d

/-- The number of binary digits of `n` (`bits.Len`), by repeated halving; `fuel` bounds the
number of halvings. -/
def bitLengthFrom : Nat → Nat → Nat
  | 0, _ => 0
  | fuel + 1, n => if n = 0 then 0 else bitLengthFrom fuel (n / 2) + 1

/-- The number of binary digits of `n`: `2^(bitLength n - 1) ≤ n < 2^(bitLength n)` for
positive `n`. -/
def bitLength (n : Nat) : Nat := bitLengthFrom n n

/-- The binary exponent of a positive fraction: the integer `e` with
`2^e ≤ num / den < 2^(e+1)`, which is the difference of the bit lengths or one less. -/
def binaryExponent (num den : Nat) : Int :=
  let e0 : Int := (bitLength num : Int) - (bitLength den : Int)
  let reached : Bool :=
    if 0 ≤ e0 then decide (den * 2 ^ e0.toNat ≤ num) else decide (den ≤ num * 2 ^ (-e0).toNat)
  if reached then e0 else e0 - 1

/-- Rounds the fraction `num / den` to binary64, ties to even: the pair `(mant, exp)` of the
nearest number `mant * 2^exp` of the format.  The unit in the last place is `2^(e-52)` for
a number with binary exponent `e ≥ -1022` and `2^-1074` below; a result with `exp > 971`
is beyond the largest finite number. -/
def roundFloat64 (num den : Nat) : Nat × Int :=
  if num = 0 then (0, -1074)
  else
    let q : Int := max (binaryExponent num den) (-1022) - 52
    let m : Nat :=
      if 0 ≤ q then roundHalfEven num (den * 2 ^ q.toNat)
      else roundHalfEven (num * 2 ^ (-q).toNat) den
    if m = 2 ^ 53 then (2 ^ 52, q + 1) else (m, q)

/-- The function `strconv.ParseFloat(s, 64)` on the literals `json` passes to it, which are
JSON numbers: the nearest binary64, ties to even, with the sign of the literal (so `-0`
gives negative zero), and `ErrRange` when that would be an infinity. -/
def ParseFloat (s : GoString) : Except NumError Float64 :=
  if scanNumber s = some (s, []) then
    match roundFloat64 (decimalFraction s).1 (decimalFraction s).2 with
    | (m, e) => if 971 < e then .error .errRange else .ok ⟨decide (s.head? = some 0x2D), m, e⟩
  else .error .errSyntax

/-- The methods `literalStore`, `array` and `object` of the decoder on one field: the value
is stored when it has the JSON type the field expects, `null` leaves the field as it is,
and any other value leaves it as it is and yields an `UnmarshalTypeError`. -/
def storeValue (f : Field) (jv : JValue) (v : DataValueFields) :
    DataValueFields × Option JSONError :=
  match jv with
  | .null => (v, none)
  | .bool _ => (v, some (.unmarshalTypeError (bytes "bool")))
  | .string s =>
    match f.kind with
    | .string => (v.setString f s, none)
    | _ => (v, some (.unmarshalTypeError (bytes "string")))
  | .number lit =>
    match f.kind with
    | .string => (v, some (.unmarshalTypeError (bytes "number")))
    | .int =>
      match ParseInt lit 64 with
      | .ok n =>
        if -(2 ^ (intSize - 1) : Int) ≤ n ∧ n < 2 ^ (intSize - 1) then (v.setInt f n, none)
        else (v, some (.unmarshalTypeError (bytes "number " ++ lit)))
      | .error _ => (v, some (.unmarshalTypeError (bytes "number " ++ lit)))
    | .float64 =>
      match ParseFloat lit with
      | .ok x => (v.setFloat f x, none)
      | .error _ => (v, some (.unmarshalTypeError (bytes "number " ++ lit)))
  | .array _ => (v, some (.unmarshalTypeError (bytes "array")))
  | .object _ => (v, some (.unmarshalTypeError (bytes "object")))

/-- The method `saveError`: only the first error is kept. -/
def saveError (saved new : Option JSONError) : Option JSONError :=
  match saved with
  | some e => some e
  | none => new

/-- The member loop of the method `object` on a struct: a member whose key names no field
is skipped, the others are stored one after the other; a type error does not stop the
loop. -/
def decodeMembers : List (GoString × JValue) → DataValueFields → Option JSONError →
    DataValueFields × Option JSONError
  | [], v, saved => (v, saved)
  | (key, jv) :: ms, v, saved =>
    match findField key with
    | none => decodeMembers ms v saved
    | some f => decodeMembers ms (storeValue f jv v).1 (saveError saved (storeValue f jv v).2)

/-- The function `json.Unmarshal(data, &v)` for `v` of type `DataValueFields`: the struct
after the call and the error returned. -/
def Unmarshal (data : List UInt8) (v : DataValueFields) : DataValueFields × Option JSONError :=
  match parseJSON data with
  | .error _ => (v, some .syntaxError)
  | .ok .null => (v, none)
  | .ok (.bool _) => (v, some (.unmarshalTypeError (bytes "bool")))
  | .ok (.number _) => (v, some (.unmarshalTypeError (bytes "number")))
  | .ok (.string _) => (v, some (.unmarshalTypeError (bytes "string")))
  | .ok (.array _) => (v, some (.unmarshalTypeError (bytes "array")))
  | .ok (.object ms) => decodeMembers ms v none

/-! ## `DynamicDataValue` and `UnmarshalJSON` -/

/-- The dynamic values stored in the slot `Data interface{}`. -/
inductive GoAny where
  | nil
  | string (s : GoString)
  | int (i : Int)
  | dataValueFields (v : DataValueFields)
  deriving DecidableEq, Repr

/-- The struct `DynamicDataValue`. -/
structure DynamicDataValue where
  Data : GoAny
  S : GoString
  I : Int
  ValueFields : DataValueFields
  Type_ : GoString
  deriving DecidableEq, Repr

/-- The zero value `DynamicDataValue{}`. -/
def DynamicDataValue.zero : DynamicDataValue :=
  { Data := .nil, S := [], I := 0, ValueFields := .zero, Type_ := [] }

/-- The run-time panics of indexing and slicing. -/
inductive Panic where
  | indexOutOfRange
  | sliceBoundsOutOfRange
  deriving DecidableEq, Repr

/-- How a call of `UnmarshalJSON` ends: it returns, leaving the receiver in state `d` and
giving the error `err` (`none` for `nil`), or it panics. -/
inductive Outcome where
  | returned (d : DynamicDataValue) (err : Option JSONError)
  | panicked (p : Panic)
  deriving DecidableEq, Repr

/-- The `else` branch of `UnmarshalJSON`: `strconv.Atoi`, and when that fails
`json.Unmarshal` into a fresh `DataValueFields{}`. -/
def unmarshalOther (d : DynamicDataValue) (b : List UInt8) : Outcome :=
  match Atoi b with
  | .error _ =>
    match Unmarshal b DataValueFields.zero with
    | (_, some err) => .returned d (some err)
    | (values, none) =>
      .returned { d with Type_ := bytes "DataValueFields", ValueFields := values,
                         Data := .dataValueFields values } none
  | .ok i => .returned { d with Type_ := bytes "Int", I := i, Data := .int i } none

/-- The method `(*DynamicDataValue).UnmarshalJSON`, with `d` the receiver before the call.
The condition reads `s[0]`, and `s[len(s)-1]` when the first test holds; the conversion
`string(s[0])` of a byte equals the one-byte string of the quote exactly when the byte is
the quote.  The string branch slices `s[1 : len(s)-1]`. -/
def UnmarshalJSON (d : DynamicDataValue) (b : List UInt8) : Outcome :=
  let s : GoString := b
  match goIndex s 0 with
  | none => .panicked .indexOutOfRange
  | some first =>
    if first = quote then
      match goIndex s ((s.length : Int) - 1) with
      | none => .panicked .indexOutOfRange
      | some last =>
        if last = quote then
          match goSlice s 1 ((s.length : Int) - 1) with
          | none => .panicked .sliceBoundsOutOfRange
          | some cleaned =>
            .returned { d with Data := .string cleaned, S := cleaned, Type_ := bytes "String" }
              none
        else unmarshalOther d b
    else unmarshalOther d b

/-! ## `Entity` and its accessors -/

/-- A Go map with string keys: `none` is the nil map, otherwise the entries. -/
abbrev GoMap (V : Type) := Option (List (GoString × V))

/-- The map index expression `m[k]`: the value stored under `k`, the zero value of the
element type when there is none or the map is nil. -/
def GoMap.index {V : Type} (m : GoMap V) (k : GoString) (zero : V) : V :=
  match m with
  | none => zero
  | some es =>
    match es.find? (fun e => decide (e.1 = k)) with
    | some e => e.2
    | none => zero

/-- The struct `Label`. -/
structure Label where
  Language : GoString
  Value : GoString
  ForLanguage : GoString
  deriving DecidableEq, Repr

/-- The struct `Description`. -/
structure Description where
  Language : GoString
  Value : GoString
  ForLanguage : GoString
  deriving DecidableEq, Repr

/-- The struct `Alias`. -/
structure Alias where
  Language : GoString
  Value : GoString
  deriving DecidableEq, Repr

/-- The struct `SiteLink`. -/
structure SiteLink where
  Site : GoString
  Title : GoString
  Badges : List GoString
  deriving DecidableEq, Repr

/-- The struct `DataValue`. -/
structure DataValue where
  Type_ : GoString
  Value : DynamicDataValue
  deriving DecidableEq, Repr

/-- The struct `Snak`. -/
structure Snak where
  SnakType : GoString
  Property : GoString
  Hash : GoString
  DataType : GoString
  DataValue : DataValue
  deriving DecidableEq, Repr

/-- The struct `Claim`. -/
structure Claim where
  ID : GoString
  Label : GoString
  Rank : GoString
  Type_ : GoString
  MainSnak : Snak
  Qualifiers : GoMap (List Snak)
  QualifiersOrder : List GoString
  deriving DecidableEq, Repr

/-- The struct `Entity`. -/
structure Entity where
  ID : GoString
  PageID : Int
  NS : Int
  Title : GoString
  LastRevID : Int
  Modified : GoString
  Type_ : GoString
  Label : GoString
  Labels : GoMap GoWikidata.Label
  Descriptions : GoMap Description
  Aliases : GoMap (List Alias)
  Claims : GoMap (List Claim)
  SiteLinks : GoMap SiteLink
  deriving DecidableEq, Repr

/-- The zero value `Label{}`. -/
def Label.zero : Label := { Language := [], Value := [], ForLanguage := [] }

/-- The zero value `Description{}`. -/
def Description.zero : Description := { Language := [], Value := [], ForLanguage := [] }

/-- The method `(*Entity).GetDescription`. -/
def Entity.GetDescription (e : Entity) (languageCode : GoString) : GoString :=
  (GoMap.index e.Descriptions languageCode Description.zero).Value

/-- The method `(*Entity).GetLabel`. -/
def Entity.GetLabel (e : Entity) (languageCode : GoString) : GoString :=
  (GoMap.index e.Labels languageCode Label.zero).Value

/-! ## Notions used to state the properties -/

/-- A JSON integer literal as the specification describes it: an optional minus sign
followed by at least one decimal digit. -/
def isIntLiteral (t : GoString) : Bool :=
  match t with
  | [] => false
  | c :: cs => if c = 0x2D then !cs.isEmpty && cs.all isDigit else t.all isDigit

/-- The natural number denoted by a string of decimal digits, most significant first. -/
def decimalValue (ds : List UInt8) : Nat := Nat.ofDigits 10 (ds.reverse.map digitVal)

/-- The integer denoted by an integer literal. -/
def intLiteralValue (t : GoString) : Int :=
  match t with
  | [] => 0
  | c :: cs => if c = 0x2D then -(decimalValue cs : Int) else (decimalValue t : Int)

/-- The receiver after a successful decoding of a string token. -/
def DynamicDataValue.withString (d : DynamicDataValue) (s : GoString) : DynamicDataValue :=
  { d with Data := .string s, S := s, Type_ := bytes "String" }

/-- The receiver after a successful decoding of an integer token. -/
def DynamicDataValue.withInt (d : DynamicDataValue) (i : Int) : DynamicDataValue :=
  { d with Data := .int i, I := i, Type_ := bytes "Int" }

/-- The receiver after a successful decoding of an object token. -/
def DynamicDataValue.withFields (d : DynamicDataValue) (v : DataValueFields) :
    DynamicDataValue :=
  { d with Data := .dataValueFields v, ValueFields := v, Type_ := bytes "DataValueFields" }

/-- A result that is not an exhausted budget and, when it is a value, leaves fewer than
`n` bytes of input. -/
def Parsed.Good {α : Type} (r : Parsed α) (n : Nat) : Prop :=
  match r with
  | .ok _ rest => rest.length < n
  | .syntaxError => True
  | .outOfFuel => False

/-- The Go value a JSON value stands for in a field of kind `k`, when the JSON value has
the declared type: a JSON string for a string field, an integer literal within the range
of `int` for an int field, and for a float64 field a number that `strconv.ParseFloat`
converts, whose value is the binary64 nearest to it. -/
def givenValue (k : FieldKind) (jv : JValue) : Option FieldValue :=
  match k, jv with
  | .string, .string s => some (.str s)
  | .int, .number lit =>
    if isIntLiteral lit = true ∧ -(2 ^ 63 : Int) ≤ intLiteralValue lit ∧
        intLiteralValue lit < 2 ^ 63 then
      some (.int (intLiteralValue lit))
    else none
  | .float64, .number lit =>
    match ParseFloat lit with
    | .ok x => some (.float x)
    | .error _ => none
  | _, _ => none

/-- The JSON value carries a value of the declared scalar type. -/
def HasDeclaredType (k : FieldKind) (jv : JValue) : Prop := (givenValue k jv).isSome = true

/-- The JSON value has another JSON type than the one the field declares: a number, a
boolean, an array or an object for a string field, a string, a boolean, an array or an
object for a numeric field.  (`null` has no type of its own and is not included.) -/
def WrongScalarType (k : FieldKind) (jv : JValue) : Prop :=
  match k, jv with
  | _, .null => False
  | .string, .string _ => False
  | .int, .number _ => False
  | .float64, .number _ => False
  | _, _ => True

/-- The value of the last member of the object that is decoded into field `f`. -/
def lastMember (f : Field) (ms : List (GoString × JValue)) : Option JValue :=
  ((ms.filter (fun m => decide (findField m.1 = some f))).getLast?).map Prod.snd

/-- The content `x` of field `f` is what an object with members `ms` gives it: the value of
the last member decoded into `f`, and the previous content `old` when there is no such
member. -/
def FieldAsGiven (old : FieldValue) (f : Field) (ms : List (GoString × JValue))
    (x : FieldValue) : Prop :=
  match lastMember f ms with
  | none => x = old
  | some jv => givenValue f.kind jv = some x

/-- The syntactic class of a token: what `checkValid` recognises in it. -/
inductive TokenClass where
  | invalid
  | null
  | bool
  | number
  | string
  | array
  | object
  deriving DecidableEq, Repr

/-- The syntactic class of a token. -/
def tokenClass (b : List UInt8) : TokenClass :=
  match parseJSON b with
  | .error _ => .invalid
  | .ok .null => .null
  | .ok (.bool _) => .bool
  | .ok (.number _) => .number
  | .ok (.string _) => .string
  | .ok (.array _) => .array
  | .ok (.object _) => .object

/-- Whether every member that is decoded into a field carries a value of the declared
type of that field, as an executable test. -/
def membersTyped (ms : List (GoString × JValue)) : Bool :=
  ms.all (fun m =>
    match findField m.1 with
    | some f => (givenValue f.kind m.2).isSome
    | none => true)

/-- The zero value `Entity{}`. -/
def Entity.zero : Entity :=
  { ID := [], PageID := 0, NS := 0, Title := [], LastRevID := 0, Modified := [], Type_ := [],
    Label := [], Labels := none, Descriptions := none, Aliases := none, Claims := none,
    SiteLinks := none }

/-- Whether `raw` is what the scanner, in state `st`, accepts as the remainder of the
content of a string literal: no quote and no control character outside an escape, and only
complete escapes. -/
def rawString : StringState → List UInt8 → Bool
  | st, [] => decide (st = .inString)
  | .inString, c :: cs =>
    if c = 0x22 then false
    else if c = 0x5C then rawString .esc cs
    else if c.toNat < 0x20 then false
    else rawString .inString cs
  | .esc, c :: cs =>
    if isSimpleEscape c then rawString .inString cs
    else if c = 0x75 then rawString (.hex 0) cs
    else false
  | .hex n, c :: cs =>
    if isHex c then rawString (if n < 3 then .hex (n + 1) else .inString) cs else false

end GoWikidata

namespace GoWikidata

/-! ## The shape of a call -/

theorem unmarshalOther_cases (d : DynamicDataValue) (b : List UInt8) :
    (∃ e, unmarshalOther d b = .returned d (some e)) ∨
    (∃ i, unmarshalOther d b = .returned (d.withInt i) none) ∨
    (∃ v, unmarshalOther d b = .returned (d.withFields v) none) := by
  unfold unmarshalOther
  cases hA : Atoi b with
  | ok i => exact Or.inr (Or.inl ⟨i, rfl⟩)
  | error e =>
    rcases hU : Unmarshal b DataValueFields.zero with ⟨v, _ | err⟩
    · exact Or.inr (Or.inr ⟨v, rfl⟩)
    · exact Or.inl ⟨err, rfl⟩

theorem UnmarshalJSON_cases (d : DynamicDataValue) (b : List UInt8) :
    (∃ p, UnmarshalJSON d b = .panicked p) ∨
    (∃ s, UnmarshalJSON d b = .returned (d.withString s) none) ∨
    UnmarshalJSON d b = unmarshalOther d b := by
  unfold UnmarshalJSON
  simp only
  cases goIndex b 0 with
  | none => exact Or.inl ⟨_, rfl⟩
  | some first =>
    simp only
    split
    · cases goIndex b ((b.length : Int) - 1) with
      | none => exact Or.inl ⟨_, rfl⟩
      | some last =>
        simp only
        split
        · cases goSlice b 1 ((b.length : Int) - 1) with
          | none => exact Or.inl ⟨_, rfl⟩
          | some cleaned => exact Or.inr (Or.inl ⟨cleaned, rfl⟩)
        · exact Or.inr (Or.inr rfl)
    · exact Or.inr (Or.inr rfl)

/-! ## strconv on digit strings -/

theorem digitsValue_from (ds : List UInt8) (n : Nat) :
    ds.foldl (fun n c => n * 10 + digitVal c) n = n * 10 ^ ds.length + decimalValue ds := by
  induction ds generalizing n with
  | nil => simp [decimalValue]
  | cons c cs ih =>
    rw [List.foldl_cons, ih]
    have hd : decimalValue (c :: cs) = digitVal c * 10 ^ cs.length + decimalValue cs := by
      unfold decimalValue
      rw [List.reverse_cons, List.map_append, Nat.ofDigits_append]
      simp [Nat.ofDigits_singleton]
      ring
    rw [hd, List.length_cons]
    ring

theorem decimalValue_eq_foldl (ds : List UInt8) :
    decimalValue ds = ds.foldl (fun n c => n * 10 + digitVal c) 0 := by
  rw [digitsValue_from]; simp

theorem foldl_digits_ge (ds : List UInt8) (n : Nat) :
    n ≤ ds.foldl (fun n c => n * 10 + digitVal c) n := by
  induction ds generalizing n with
  | nil => simp
  | cons c cs ih =>
    rw [List.foldl_cons]
    exact le_trans (by omega) (ih _)

theorem parseUintLoop_digits (bitSize : Nat) (ds : List UInt8) (n : Nat)
    (hd : ∀ c ∈ ds, isDigit c = true)
    (hb : ds.foldl (fun n c => n * 10 + digitVal c) n < 2 ^ bitSize) :
    parseUintLoop bitSize ds n = .ok (ds.foldl (fun n c => n * 10 + digitVal c) n) := by
  induction ds generalizing n with
  | nil => rfl
  | cons c cs ih =>
    have hc : isDigit c = true := hd c (List.mem_cons_self _ _)
    rw [List.foldl_cons] at hb ⊢
    have hlt : n * 10 + digitVal c < 2 ^ bitSize :=
      lt_of_le_of_lt (foldl_digits_ge cs _) hb
    unfold parseUintLoop
    rw [if_pos hc, if_pos hlt]
    exact ih _ (fun x hx => hd x (List.mem_cons_of_mem _ hx)) hb

theorem ParseUint_digits (bitSize : Nat) (ds : List UInt8) (hne : ds ≠ [])
    (hd : ∀ c ∈ ds, isDigit c = true) (hb : decimalValue ds < 2 ^ bitSize) :
    ParseUint ds bitSize = .ok (decimalValue ds) := by
  cases ds with
  | nil => exact absurd rfl hne
  | cons c cs =>
    unfold ParseUint
    simp only
    rw [decimalValue_eq_foldl] at hb ⊢
    exact parseUintLoop_digits bitSize _ 0 hd hb

theorem isDigit_ne_sign (c : UInt8) (h : isDigit c = true) : c ≠ 0x2B ∧ c ≠ 0x2D ∧ c ≠ quote := by
  refine ⟨?_, ?_, ?_⟩ <;> (intro hc; subst hc; revert h; decide)

theorem ParseInt_minus (bitSize : Nat) (cs : List UInt8) :
    ParseInt (0x2D :: cs) bitSize =
      match ParseUint cs bitSize with
      | .error e => .error e
      | .ok un => if 2 ^ (bitSize - 1) < un then .error .errRange else .ok (-(un : Int)) := by
  unfold ParseInt
  simp only [or_true, if_true, decide_True]
  cases ParseUint cs bitSize <;> simp

theorem ParseInt_unsigned (bitSize : Nat) (c : UInt8) (cs : List UInt8)
    (hp : c ≠ 0x2B) (hm : c ≠ 0x2D) :
    ParseInt (c :: cs) bitSize =
      match ParseUint (c :: cs) bitSize with
      | .error e => .error e
      | .ok un => if 2 ^ (bitSize - 1) ≤ un then .error .errRange else .ok (un : Int) := by
  unfold ParseInt
  simp only [hp, hm, or_self, if_false, decide_False]
  cases ParseUint (c :: cs) bitSize <;> simp

/-- The function `ParseInt` on an integer literal whose value fits the width. -/
theorem ParseInt_intLiteral (bitSize : Nat) (hpos : 0 < bitSize) (t : GoString)
    (hl : isIntLiteral t = true)
    (hlo : -(2 ^ (bitSize - 1) : Int) ≤ intLiteralValue t)
    (hhi : intLiteralValue t < 2 ^ (bitSize - 1)) :
    ParseInt t bitSize = .ok (intLiteralValue t) := by
  have hpow : (2 : Nat) ^ (bitSize - 1) < 2 ^ bitSize :=
    Nat.pow_lt_pow_right (by omega) (by omega)
  cases t with
  | nil => simp [isIntLiteral] at hl
  | cons c cs =>
    unfold isIntLiteral at hl
    unfold intLiteralValue at hlo hhi ⊢
    simp only at hl hlo hhi ⊢
    by_cases hm : c = 0x2D
    · subst hm
      rw [if_pos rfl] at hl hlo hhi ⊢
      simp only [Bool.and_eq_true, Bool.not_eq_true', List.isEmpty_eq_false, List.all_eq_true] at hl
      have hne : cs ≠ [] := by
        intro h; rw [h] at hl; simp at hl
      have hv : decimalValue cs ≤ 2 ^ (bitSize - 1) := by
        have h2 : ((decimalValue cs : Nat) : Int) ≤ ((2 ^ (bitSize - 1) : Nat) : Int) := by
          push_cast; omega
        exact_mod_cast h2
      have hU := ParseUint_digits bitSize cs hne hl.2 (by omega)
      rw [ParseInt_minus, hU]
      simp only
      rw [if_neg (by omega)]
    · rw [if_neg hm] at hl hlo hhi ⊢
      simp only [List.all_eq_true] at hl
      have hc := isDigit_ne_sign c (hl c (List.mem_cons_self _ _))
      have hv : decimalValue (c :: cs) < 2 ^ (bitSize - 1) := by
        have h2 : ((decimalValue (c :: cs) : Nat) : Int) < ((2 ^ (bitSize - 1) : Nat) : Int) := by
          push_cast; omega
        exact_mod_cast h2
      have hU := ParseUint_digits bitSize (c :: cs) (by simp) hl (by omega)
      rw [ParseInt_unsigned bitSize c cs hc.1 hc.2.1, hU]
      simp only
      rw [if_neg (by omega)]

theorem Atoi_intLiteral (t : GoString) (hl : isIntLiteral t = true)
    (hlo : -(2 ^ 63 : Int) ≤ intLiteralValue t) (hhi : intLiteralValue t < 2 ^ 63) :
    Atoi t = .ok (intLiteralValue t) :=
  ParseInt_intLiteral 64 (by decide) t hl hlo hhi

theorem intLiteral_first (t : GoString) (hl : isIntLiteral t = true) :
    ∃ c cs, t = c :: cs ∧ c ≠ quote := by
  cases t with
  | nil => simp [isIntLiteral] at hl
  | cons c cs =>
    refine ⟨c, cs, rfl, ?_⟩
    unfold isIntLiteral at hl
    simp only at hl
    by_cases hm : c = 0x2D
    · subst hm; decide
    · rw [if_neg hm] at hl
      simp only [List.all_eq_true] at hl
      exact (isDigit_ne_sign c (hl c (List.mem_cons_self _ _))).2.2

theorem UnmarshalJSON_not_quoted (d : DynamicDataValue) (c : UInt8) (cs : List UInt8)
    (hc : c ≠ quote) : UnmarshalJSON d (c :: cs) = unmarshalOther d (c :: cs) := by
  unfold UnmarshalJSON
  simp [goIndex, hc]

/-- C2 (amended). For every token that is an integer literal (an optional minus sign
followed by decimal digits) whose value lies in the range of a 64-bit `int`,
`-2^63 ≤ value < 2^63`, `UnmarshalJSON` succeeds, sets `Type` to "Int", and sets `I` and
`Data` to exactly the integer the literal denotes. -/
theorem UnmarshalJSON_int_token (d : DynamicDataValue) (t : List UInt8)
    (hl : isIntLiteral t = true)
    (hlo : -(2 ^ 63 : Int) ≤ intLiteralValue t) (hhi : intLiteralValue t < 2 ^ 63) :
    UnmarshalJSON d t = .returned
      { d with Type_ := bytes "Int", I := intLiteralValue t, Data := .int (intLiteralValue t) }
      none := by
  obtain ⟨c, cs, rfl, hc⟩ := intLiteral_first t hl
  rw [UnmarshalJSON_not_quoted d c cs hc]
  unfold unmarshalOther
  rw [Atoi_intLiteral _ hl hlo hhi]

theorem UnmarshalJSON_int_token_witness :
    UnmarshalJSON DynamicDataValue.zero (bytes "42") = .returned
      { DynamicDataValue.zero with Type_ := bytes "Int", I := 42, Data := .int 42 } none ∧
    UnmarshalJSON DynamicDataValue.zero (bytes "-7") = .returned
      { DynamicDataValue.zero with Type_ := bytes "Int", I := -7, Data := .int (-7) } none :=
  ⟨UnmarshalJSON_int_token DynamicDataValue.zero (bytes "42") (by decide) (by decide) (by decide),
   UnmarshalJSON_int_token DynamicDataValue.zero (bytes "-7") (by decide) (by decide) (by decide)⟩

/-- C2 (counterexample). The token `9223372036854775808` is an integer literal, and
`UnmarshalJSON` returns an error on it: `strconv.Atoi` reports a range error and the number
is then refused by `json.Unmarshal`. -/
theorem int_literal_overflow_counterexample :
    isIntLiteral (bytes "9223372036854775808") = true ∧
    intLiteralValue (bytes "9223372036854775808") = 9223372036854775808 ∧
    UnmarshalJSON DynamicDataValue.zero (bytes "9223372036854775808") =
      .returned DynamicDataValue.zero (some (.unmarshalTypeError (bytes "number"))) := by
  refine ⟨by decide, by decide, by decide⟩

theorem quoted_decompose (b : List UInt8) (hlen : 2 ≤ b.length)
    (hfirst : b.head? = some quote) (hlast : b.getLast? = some quote) :
    ∃ mid, b = quote :: (mid ++ [quote]) := by
  cases b with
  | nil => simp at hlen
  | cons c cs =>
    simp at hfirst
    subst hfirst
    have hne : cs ≠ [] := by
      intro h; subst h; simp at hlen
    obtain ⟨mid, l, hcs⟩ : ∃ mid l, cs = mid ++ [l] :=
      ⟨cs.dropLast, cs.getLast hne, (List.dropLast_append_getLast hne).symm⟩
    subst hcs
    refine ⟨mid, ?_⟩
    have : (quote :: (mid ++ [l])).getLast? = some l := by
      rw [← List.cons_append, List.getLast?_append]; simp
    rw [this] at hlast
    injection hlast with h
    rw [h]

theorem UnmarshalJSON_quoted (d : DynamicDataValue) (mid : List UInt8) :
    UnmarshalJSON d (quote :: (mid ++ [quote])) = .returned (d.withString mid) none := by
  have h0 : goIndex (quote :: (mid ++ [quote])) 0 = some quote := by
    simp [goIndex]
  have hl : goIndex (quote :: (mid ++ [quote])) (((quote :: (mid ++ [quote])).length : Int) - 1)
      = some quote := by
    have : (((quote :: (mid ++ [quote])).length : Int) - 1) = ((mid.length + 1 : Nat) : Int) := by
      simp
    rw [this]
    unfold goIndex
    simp only [Int.toNat_ofNat]
    have hneg : ¬ (((mid.length + 1 : Nat) : Int) < 0) := by omega
    rw [if_neg hneg]
    simp [List.getElem?_append_right]
  have hs : goSlice (quote :: (mid ++ [quote])) 1 (((quote :: (mid ++ [quote])).length : Int) - 1)
      = some mid := by
    have : (((quote :: (mid ++ [quote])).length : Int) - 1) = ((mid.length + 1 : Nat) : Int) := by
      simp
    rw [this]
    unfold goSlice
    have hc : (0 : Int) ≤ 1 ∧ (1 : Int) ≤ ((mid.length + 1 : Nat) : Int) ∧
        ((mid.length + 1 : Nat) : Int) ≤ ((quote :: (mid ++ [quote])).length : Int) := by
      simp
    rw [if_pos hc]
    simp
  unfold UnmarshalJSON
  simp only [h0, hl, hs, if_true]
  rfl

/-- C1. For every token of length at least 2 whose first and last bytes are both the quote
character, `UnmarshalJSON` succeeds, sets `Type` to "String", and sets both `S` and `Data`
to the token with exactly its first and last byte removed, without any processing of escape
sequences; the result is `len(token) - 2` bytes long. -/
theorem UnmarshalJSON_string_token (d : DynamicDataValue) (b : List UInt8)
    (hlen : 2 ≤ b.length) (hfirst : b.head? = some quote) (hlast : b.getLast? = some quote) :
    UnmarshalJSON d b = .returned
        { d with Data := .string b.tail.dropLast, S := b.tail.dropLast,
                 Type_ := bytes "String" } none ∧
      b.tail.dropLast.length = b.length - 2 := by
  obtain ⟨mid, rfl⟩ := quoted_decompose b hlen hfirst hlast
  refine ⟨?_, ?_⟩
  · rw [UnmarshalJSON_quoted]
    simp [DynamicDataValue.withString]
  · simp

theorem UnmarshalJSON_string_token_witness :
    UnmarshalJSON DynamicDataValue.zero (bytes "\"abc\"") = .returned
        { DynamicDataValue.zero with
          Data := .string (bytes "abc"), S := bytes "abc", Type_ := bytes "String" } none ∧
    UnmarshalJSON DynamicDataValue.zero (bytes "\"a\\\"b\"") = .returned
        { DynamicDataValue.zero with
          Data := .string (bytes "a\\\"b"), S := bytes "a\\\"b", Type_ := bytes "String" } none :=
  ⟨(UnmarshalJSON_string_token DynamicDataValue.zero (bytes "\"abc\"") (by decide) (by decide)
      (by decide)).1,
   (UnmarshalJSON_string_token DynamicDataValue.zero (bytes "\"a\\\"b\"") (by decide) (by decide)
      (by decide)).1⟩

/-- C5. What the code does on the empty token and on the token that is a single quote
character: on the empty token the condition `s[0]` panics with an index out of range, and
on the single quote both tests of the condition hold and the slice `s[1:0]` panics with
slice bounds out of range.  Neither call returns an error. -/
theorem UnmarshalJSON_short_token_panics (d : DynamicDataValue) :
    UnmarshalJSON d [] = .panicked .indexOutOfRange ∧
    UnmarshalJSON d [quote] = .panicked .sliceBoundsOutOfRange := by
  constructor <;> rfl

/-! ## The tag, the failure path and the frame of `UnmarshalJSON` -/

theorem tag_string_ne_int : bytes "String" ≠ bytes "Int" := by decide

theorem tag_string_ne_fields : bytes "String" ≠ bytes "DataValueFields" := by decide

theorem tag_int_ne_fields : bytes "Int" ≠ bytes "DataValueFields" := by decide

/-- A call that returns without error has decoded a string, an integer or an object, and
has written exactly the slots of that variant. -/
theorem UnmarshalJSON_success_shape (d d' : DynamicDataValue) (b : List UInt8)
    (h : UnmarshalJSON d b = .returned d' none) :
    (∃ s, d' = d.withString s) ∨ (∃ i, d' = d.withInt i) ∨ (∃ v, d' = d.withFields v) := by
  rcases UnmarshalJSON_cases d b with ⟨p, hp⟩ | ⟨s, hs⟩ | ho
  · rw [hp] at h; cases h
  · rw [hs] at h
    injection h with h1 _
    exact Or.inl ⟨s, h1.symm⟩
  · rw [ho] at h
    rcases unmarshalOther_cases d b with ⟨e, he⟩ | ⟨i, hi⟩ | ⟨v, hv⟩
    · rw [he] at h; injection h with _ h2; cases h2
    · rw [hi] at h
      injection h with h1 _
      exact Or.inr (Or.inl ⟨i, h1.symm⟩)
    · rw [hv] at h
      injection h with h1 _
      exact Or.inr (Or.inr ⟨v, h1.symm⟩)

/-- C6. After every successful call of `UnmarshalJSON`, whatever the receiver `d` held
before, `Type` is one of "String", "Int" and "DataValueFields", and the tag matches the
populated variant: `Data` holds a string equal to `S` exactly when `Type` is "String", an
int equal to `I` exactly when `Type` is "Int", and a `DataValueFields` equal to
`ValueFields` exactly when `Type` is "DataValueFields". -/
theorem UnmarshalJSON_tag_matches_variant (d d' : DynamicDataValue) (b : List UInt8)
    (h : UnmarshalJSON d b = .returned d' none) :
    (d'.Type_ = bytes "String" ∨ d'.Type_ = bytes "Int" ∨
      d'.Type_ = bytes "DataValueFields") ∧
    (d'.Data = .string d'.S ↔ d'.Type_ = bytes "String") ∧
    (d'.Data = .int d'.I ↔ d'.Type_ = bytes "Int") ∧
    (d'.Data = .dataValueFields d'.ValueFields ↔ d'.Type_ = bytes "DataValueFields") := by
  have hs := tag_string_ne_int
  have hf := tag_string_ne_fields
  have hi := tag_int_ne_fields
  rcases UnmarshalJSON_success_shape d d' b h with ⟨s, rfl⟩ | ⟨i, rfl⟩ | ⟨v, rfl⟩
  · simp [DynamicDataValue.withString, hs, hf]
  · simp [DynamicDataValue.withInt, hs.symm, hi]
  · simp [DynamicDataValue.withFields, hf.symm, hi.symm]

theorem UnmarshalJSON_tag_matches_variant_witness :
    UnmarshalJSON { DynamicDataValue.zero with S := bytes "x", I := 5, Type_ := bytes "Int" }
        (bytes "\"abc\"") =
      .returned { DynamicDataValue.zero with
        Data := .string (bytes "abc"), S := bytes "abc", I := 5, Type_ := bytes "String" }
        none ∧
    ((GoAny.string (bytes "abc") = .string (bytes "abc") ↔ bytes "String" = bytes "String") ∧
     (GoAny.string (bytes "abc") = .int 5 ↔ bytes "String" = bytes "Int") ∧
     (GoAny.string (bytes "abc") = .dataValueFields DataValueFields.zero ↔
        bytes "String" = bytes "DataValueFields")) :=
  ⟨by decide,
   (UnmarshalJSON_tag_matches_variant
      { DynamicDataValue.zero with S := bytes "x", I := 5, Type_ := bytes "Int" }
      { DynamicDataValue.zero with
        Data := .string (bytes "abc"), S := bytes "abc", I := 5, Type_ := bytes "String" }
      (bytes "\"abc\"") (by decide)).2⟩

/-- C9. Whenever `UnmarshalJSON` returns an error, the receiver is left exactly as it was
before the call: none of `Data`, `S`, `I`, `ValueFields` and `Type` is modified. -/
theorem UnmarshalJSON_error_leaves_receiver (d d' : DynamicDataValue) (b : List UInt8)
    (e : JSONError) (h : UnmarshalJSON d b = .returned d' (some e)) : d' = d := by
  rcases UnmarshalJSON_cases d b with ⟨p, hp⟩ | ⟨s, hs⟩ | ho
  · rw [hp] at h; cases h
  · rw [hs] at h; injection h with _ h2; cases h2
  · rw [ho] at h
    rcases unmarshalOther_cases d b with ⟨e, he⟩ | ⟨i, hi⟩ | ⟨v, hv⟩
    · rw [he] at h; injection h with h1 _; exact h1.symm
    · rw [hi] at h; injection h with _ h2; cases h2
    · rw [hv] at h; injection h with _ h2; cases h2

theorem UnmarshalJSON_error_leaves_receiver_witness :
    UnmarshalJSON { DynamicDataValue.zero with S := bytes "x", I := 5, Type_ := bytes "Int" }
        (bytes "3.14") =
      .returned { DynamicDataValue.zero with S := bytes "x", I := 5, Type_ := bytes "Int" }
        (some (.unmarshalTypeError (bytes "number"))) ∧
    ({ DynamicDataValue.zero with S := bytes "x", I := 5, Type_ := bytes "Int" } :
        DynamicDataValue) =
      { DynamicDataValue.zero with S := bytes "x", I := 5, Type_ := bytes "Int" } :=
  ⟨by decide,
   UnmarshalJSON_error_leaves_receiver
      { DynamicDataValue.zero with S := bytes "x", I := 5, Type_ := bytes "Int" } _
      (bytes "3.14") (.unmarshalTypeError (bytes "number")) (by decide)⟩

/-- C10. A successful `UnmarshalJSON` writes only `Data`, `Type` and the single slot of
the chosen variant (`S` for a string, `I` for an integer, `ValueFields` for an object);
the two other slots keep the values the receiver held before the call. -/
theorem UnmarshalJSON_frame (d d' : DynamicDataValue) (b : List UInt8)
    (h : UnmarshalJSON d b = .returned d' none) :
    ((∃ s, d' = { d with Data := .string s, S := s, Type_ := bytes "String" }) ∨
     (∃ i, d' = { d with Data := .int i, I := i, Type_ := bytes "Int" }) ∨
     (∃ v, d' = { d with Data := .dataValueFields v, ValueFields := v,
                         Type_ := bytes "DataValueFields" })) ∧
    (d'.Type_ = bytes "String" → d'.I = d.I ∧ d'.ValueFields = d.ValueFields) ∧
    (d'.Type_ = bytes "Int" → d'.S = d.S ∧ d'.ValueFields = d.ValueFields) ∧
    (d'.Type_ = bytes "DataValueFields" → d'.S = d.S ∧ d'.I = d.I) := by
  have hs := tag_string_ne_int
  have hf := tag_string_ne_fields
  have hi := tag_int_ne_fields
  rcases UnmarshalJSON_success_shape d d' b h with ⟨s, rfl⟩ | ⟨i, rfl⟩ | ⟨v, rfl⟩
  · refine ⟨Or.inl ⟨s, rfl⟩, ?_⟩
    simp [DynamicDataValue.withString, hs, hf]
  · refine ⟨Or.inr (Or.inl ⟨i, rfl⟩), ?_⟩
    simp [DynamicDataValue.withInt, hs.symm, hi]
  · refine ⟨Or.inr (Or.inr ⟨v, rfl⟩), ?_⟩
    simp [DynamicDataValue.withFields, hf.symm, hi.symm]

theorem UnmarshalJSON_frame_witness :
    UnmarshalJSON { DynamicDataValue.zero with S := bytes "x" } (bytes "7") =
      .returned { DynamicDataValue.zero with
        Data := .int 7, S := bytes "x", I := 7, Type_ := bytes "Int" } none ∧
    ({ DynamicDataValue.zero with
        Data := .int 7, S := bytes "x", I := 7, Type_ := bytes "Int" } : DynamicDataValue).S =
      bytes "x" :=
  ⟨by decide,
   ((UnmarshalJSON_frame { DynamicDataValue.zero with S := bytes "x" }
      { DynamicDataValue.zero with
        Data := .int 7, S := bytes "x", I := 7, Type_ := bytes "Int" }
      (bytes "7") (by decide)).2.2.1 rfl).1⟩

/-! ## The scanner consumes its input -/

theorem skipSpace_length_le (bs : List UInt8) : (skipSpace bs).length ≤ bs.length := by
  induction bs with
  | nil => simp [skipSpace]
  | cons c cs ih =>
    unfold skipSpace
    split
    · exact Nat.le_succ_of_le ih
    · exact Nat.le_refl _

theorem span_snd_length_le (p : UInt8 → Bool) (bs : List UInt8) :
    (bs.span p).2.length ≤ bs.length := by
  rw [List.span_eq_take_drop]
  exact (List.dropWhile_sublist p).length_le

theorem scanStringFrom_length (st : StringState) (bs raw rest : List UInt8)
    (h : scanStringFrom st bs = some (raw, rest)) : rest.length < bs.length := by
  induction bs generalizing st raw rest with
  | nil => cases st <;> simp [scanStringFrom] at h
  | cons c cs ih =>
    cases st with
    | inString =>
      unfold scanStringFrom at h
      split at h
      · simp at h; rw [← h.2]; simp
      · split at h
        · simp only [Option.map_eq_some'] at h
          obtain ⟨⟨r1, r2⟩, h1, h2⟩ := h
          have := ih _ _ _ h1
          simp at h2; rw [← h2.2]; simp; omega
        · split at h
          · simp at h
          · simp only [Option.map_eq_some'] at h
            obtain ⟨⟨r1, r2⟩, h1, h2⟩ := h
            have := ih _ _ _ h1
            simp at h2; rw [← h2.2]; simp; omega
    | esc =>
      unfold scanStringFrom at h
      split at h
      · simp only [Option.map_eq_some'] at h
        obtain ⟨⟨r1, r2⟩, h1, h2⟩ := h
        have := ih _ _ _ h1
        simp at h2; rw [← h2.2]; simp; omega
      · split at h
        · simp only [Option.map_eq_some'] at h
          obtain ⟨⟨r1, r2⟩, h1, h2⟩ := h
          have := ih _ _ _ h1
          simp at h2; rw [← h2.2]; simp; omega
        · simp at h
    | hex n =>
      unfold scanStringFrom at h
      split at h
      · simp only [Option.map_eq_some'] at h
        obtain ⟨⟨r1, r2⟩, h1, h2⟩ := h
        have := ih _ _ _ h1
        simp at h2; rw [← h2.2]; simp; omega
      · simp at h

theorem parseString_length (bs : List UInt8) (s : GoString) (rest : List UInt8)
    (h : parseString bs = .ok s rest) : rest.length < bs.length := by
  unfold parseString at h
  split at h
  · cases h
  · rename_i raw rest1 hs
    split at h
    · injection h with _ h2
      subst h2
      exact scanStringFrom_length _ _ _ _ hs
    · cases h

theorem parseString_fuel (bs : List UInt8) : parseString bs ≠ .outOfFuel := by
  unfold parseString
  split
  · simp
  · split <;> simp

theorem scanExponent_length (acc bs lit rest : List UInt8)
    (h : scanExponent acc bs = some (lit, rest)) : rest.length ≤ bs.length := by
  unfold scanExponent at h
  cases bs with
  | nil => simp at h; rw [← h.2]
  | cons e r1 =>
    simp only at h
    split at h
    · split at h
      · cases h
      · injection h with h
        injection h with _ h2
        rw [← h2]
        refine le_trans (span_snd_length_le _ _) ?_
        cases r1 with
        | nil => simp
        | cons s r2 =>
          simp only
          split
          · simp; omega
          · simp
    · injection h with h
      injection h with _ h2
      rw [← h2]

theorem scanFraction_length (acc bs lit rest : List UInt8)
    (h : scanFraction acc bs = some (lit, rest)) : rest.length ≤ bs.length := by
  unfold scanFraction at h
  cases bs with
  | nil => simp at h; rw [← h.2]
  | cons p r1 =>
    simp only at h
    split at h
    · split at h
      · cases h
      · have := scanExponent_length _ _ _ _ h
        have := span_snd_length_le isDigit r1
        simp; omega
    · exact scanExponent_length _ _ _ _ h

theorem scanNumber_length (bs lit rest : List UInt8)
    (h : scanNumber bs = some (lit, rest)) : rest.length < bs.length := by
  unfold scanNumber at h
  simp only at h
  split at h
  · cases h
  · rename_i c cs hsg
    have hlen : (c :: cs).length ≤ bs.length := by
      rw [← hsg]
      cases bs with
      | nil => simp
      | cons s r => simp only; split <;> simp
    split at h
    · have := scanFraction_length _ _ _ _ h
      simp at hlen; omega
    · split at h
      · have := scanFraction_length _ _ _ _ h
        have := span_snd_length_le isDigit cs
        simp at hlen; omega
      · cases h

theorem stripPrefix_length (p bs rest : List UInt8) (h : stripPrefix p bs = some rest) :
    rest.length ≤ bs.length := by
  induction p generalizing bs with
  | nil => simp [stripPrefix] at h; rw [h]
  | cons x xs ih =>
    cases bs with
    | nil => simp [stripPrefix] at h
    | cons c cs =>
      unfold stripPrefix at h
      split at h
      · exact Nat.le_succ_of_le (ih _ h)
      · cases h

/-! ## A scanned string literal can always be unquoted -/

theorem scanStringFrom_raw (st : StringState) (bs raw rest : List UInt8)
    (h : scanStringFrom st bs = some (raw, rest)) : rawString st raw = true := by
  induction bs generalizing st raw rest with
  | nil => cases st <;> simp [scanStringFrom] at h
  | cons c cs ih =>
    cases st with
    | inString =>
      unfold scanStringFrom at h
      split at h
      · simp at h; rw [h.1]; rfl
      · rename_i hq
        split at h
        · rename_i hb
          simp only [Option.map_eq_some'] at h
          obtain ⟨⟨r1, r2⟩, h1, h2⟩ := h
          have := ih _ _ _ h1
          simp at h2; rw [← h2.1]
          unfold rawString
          rw [if_neg hq, if_pos hb]; exact this
        · rename_i hb
          split at h
          · simp at h
          · rename_i hlt
            simp only [Option.map_eq_some'] at h
            obtain ⟨⟨r1, r2⟩, h1, h2⟩ := h
            have := ih _ _ _ h1
            simp at h2; rw [← h2.1]
            unfold rawString
            rw [if_neg hq, if_neg hb, if_neg hlt]; exact this
    | esc =>
      unfold scanStringFrom at h
      split at h
      · rename_i hs
        simp only [Option.map_eq_some'] at h
        obtain ⟨⟨r1, r2⟩, h1, h2⟩ := h
        have := ih _ _ _ h1
        simp at h2; rw [← h2.1]
        unfold rawString
        rw [if_pos hs]; exact this
      · rename_i hs
        split at h
        · rename_i hu
          simp only [Option.map_eq_some'] at h
          obtain ⟨⟨r1, r2⟩, h1, h2⟩ := h
          have := ih _ _ _ h1
          simp at h2; rw [← h2.1]
          unfold rawString
          rw [if_neg hs, if_pos hu]; exact this
        · simp at h
    | hex n =>
      unfold scanStringFrom at h
      split at h
      · rename_i hh
        simp only [Option.map_eq_some'] at h
        obtain ⟨⟨r1, r2⟩, h1, h2⟩ := h
        have := ih _ _ _ h1
        simp at h2; rw [← h2.1]
        unfold rawString
        rw [if_pos hh]; exact this
      · simp at h

theorem hexVal_of_isHex (c : UInt8) (h : isHex c = true) : ∃ x, hexVal c = some x := by
  unfold isHex at h
  simp only [decide_eq_true_eq] at h
  unfold hexVal
  rcases h with h | h | h
  · exact ⟨_, by rw [if_pos h]⟩
  · by_cases h1 : 48 ≤ c.toNat ∧ c.toNat ≤ 57
    · exact ⟨_, by rw [if_pos h1]⟩
    · exact ⟨_, by rw [if_neg h1, if_pos h]⟩
  · by_cases h1 : 48 ≤ c.toNat ∧ c.toNat ≤ 57
    · exact ⟨_, by rw [if_pos h1]⟩
    · by_cases h2 : 97 ≤ c.toNat ∧ c.toNat ≤ 102
      · exact ⟨_, by rw [if_neg h1, if_pos h2]⟩
      · exact ⟨_, by rw [if_neg h1, if_neg h2, if_pos h]⟩

theorem rawString_hex_cons (n : Nat) (c : UInt8) (cs : List UInt8) :
    rawString (.hex n) (c :: cs) =
      (isHex c && rawString (if n < 3 then .hex (n + 1) else .inString) cs) := by
  rw [rawString]
  split <;> simp_all

theorem rawString_hex_nil (n : Nat) : rawString (.hex n) [] = false := by
  simp [rawString]

theorem rawString_escU (cs : List UInt8) (h : rawString (.hex 0) cs = true) :
    ∃ h1 h2 h3 h4 cs2 rr, cs = h1 :: h2 :: h3 :: h4 :: cs2 ∧ hex4 h1 h2 h3 h4 = some rr ∧
      rawString .inString cs2 = true := by
  rcases cs with _ | ⟨h1, _ | ⟨h2, _ | ⟨h3, _ | ⟨h4, cs2⟩⟩⟩⟩
  · simp [rawString_hex_nil] at h
  · simp [rawString_hex_cons, rawString_hex_nil] at h
  · simp [rawString_hex_cons, rawString_hex_nil] at h
  · simp [rawString_hex_cons, rawString_hex_nil] at h
  · simp only [rawString_hex_cons, Bool.and_eq_true, show (0 : Nat) < 3 by omega,
      show (0 + 1 : Nat) < 3 by omega, show (0 + 1 + 1 : Nat) < 3 by omega,
      show ¬ (0 + 1 + 1 + 1 : Nat) < 3 by omega, if_true, if_false] at h
    obtain ⟨hh1, hh2, hh3, hh4, hr⟩ := h
    obtain ⟨a, ha⟩ := hexVal_of_isHex _ hh1
    obtain ⟨b, hb⟩ := hexVal_of_isHex _ hh2
    obtain ⟨c, hc⟩ := hexVal_of_isHex _ hh3
    obtain ⟨d, hd⟩ := hexVal_of_isHex _ hh4
    exact ⟨h1, h2, h3, h4, cs2, ((a * 16 + b) * 16 + c) * 16 + d, rfl,
      by simp [hex4, ha, hb, hc, hd], hr⟩

theorem unquoteFrom_skip (keep : Bool) (k : Nat) (s : List UInt8)
    (h : (unquoteFrom keep 0 (s.drop k)).isSome = true) :
    (unquoteFrom keep k s).isSome = true := by
  induction k generalizing s with
  | zero => simpa using h
  | succ k ih =>
    cases s with
    | nil => simp [unquoteFrom]
    | cons c cs =>
      rw [List.drop_succ_cons] at h
      rw [unquoteFrom]
      cases keep
      · simpa using ih cs h
      · simpa using ih cs h

theorem rawString_inString_cons (c : UInt8) (cs : List UInt8)
    (h : rawString .inString (c :: cs) = true) :
    c ≠ 0x22 ∧ ((c = 0x5C ∧ rawString .esc cs = true) ∨
      (c ≠ 0x5C ∧ ¬ c.toNat < 0x20 ∧ rawString .inString cs = true)) := by
  rw [rawString] at h
  split at h
  · simp at h
  · rename_i hq
    refine ⟨hq, ?_⟩
    split at h
    · rename_i hb; exact Or.inl ⟨hb, h⟩
    · rename_i hb
      split at h
      · simp at h
      · rename_i hlt; exact Or.inr ⟨hb, hlt, h⟩

theorem rawString_drop_high (pre post : List UInt8) (hp : ∀ b ∈ pre, 0x80 ≤ b.toNat)
    (h : rawString .inString (pre ++ post) = true) : rawString .inString post = true := by
  induction pre with
  | nil => simpa using h
  | cons b pre ih =>
    have hb : 0x80 ≤ b.toNat := hp b (List.mem_cons_self _ _)
    rw [List.cons_append] at h
    obtain ⟨_, h1 | h1⟩ := rawString_inString_cons _ _ h
    · have : b.toNat = 0x5C := by rw [h1.1]; rfl
      omega
    · exact ih (fun x hx => hp x (List.mem_cons_of_mem _ hx)) h1.2.2

theorem utf8Lead_lo (c : UInt8) (sz lo hi : Nat) (h : utf8Lead c = some (sz, lo, hi)) :
    0x80 ≤ lo := by
  unfold utf8Lead at h
  simp only at h
  repeat' split at h
  all_goals first
    | (injection h with h; injection h with _ h; injection h with h _; omega)
    | cases h

theorem utf8Width_spec (c : UInt8) (cs : List UInt8) (h : utf8Width c cs ≠ 0) :
    ∃ pre post, cs = pre ++ post ∧ pre.length = utf8Width c cs - 1 ∧
      ∀ b ∈ pre, 0x80 ≤ b.toNat := by
  unfold utf8Width at h ⊢
  cases hl : utf8Lead c with
  | none => rw [hl] at h; exact absurd rfl h
  | some t =>
    obtain ⟨sz, lo, hi⟩ := t
    have hlo := utf8Lead_lo c sz lo hi hl
    rw [hl] at h
    simp only at h ⊢
    split at h
    · exact absurd rfl h
    · rename_i hlen
      rw [if_neg hlen]
      rcases cs with _ | ⟨b1, r1⟩
      · exact absurd rfl h
      · simp only at h ⊢
        split at h
        · exact absurd rfl h
        · rename_i hb1
          rw [if_neg hb1]
          have hb1' : 0x80 ≤ b1.toNat := by omega
          split at h
          · rename_i hs2
            rw [if_pos hs2]
            exact ⟨[b1], r1, rfl, rfl, by simpa using hb1'⟩
          · rename_i hs2
            rw [if_neg hs2]
            rcases r1 with _ | ⟨b2, r2⟩
            · exact absurd rfl h
            · simp only at h ⊢
              split at h
              · exact absurd rfl h
              · rename_i hc2
                rw [if_neg hc2]
                have hb2 : 0x80 ≤ b2.toNat := by
                  simp only [isCont, Bool.not_eq_true', decide_eq_false_iff_not, not_not] at hc2
                  exact hc2.1
                split at h
                · rename_i hs3
                  rw [if_pos hs3]
                  refine ⟨[b1, b2], r2, rfl, rfl, ?_⟩
                  intro b hb
                  simp only [List.mem_cons, List.mem_singleton, List.not_mem_nil, or_false] at hb
                  rcases hb with rfl | rfl <;> assumption
                · rename_i hs3
                  rw [if_neg hs3]
                  rcases r2 with _ | ⟨b3, r3⟩
                  · exact absurd rfl h
                  · simp only at h ⊢
                    split at h
                    · exact absurd rfl h
                    · rename_i hc3
                      rw [if_neg hc3]
                      have hb3 : 0x80 ≤ b3.toNat := by
                        simp only [isCont, Bool.not_eq_true', decide_eq_false_iff_not,
                          not_not] at hc3
                        exact hc3.1
                      refine ⟨[b1, b2, b3], r3, rfl, rfl, ?_⟩
                      intro b hb
                      simp only [List.mem_cons, List.mem_singleton, List.not_mem_nil,
                        or_false] at hb
                      rcases hb with rfl | rfl | rfl <;> assumption

theorem unescape_of_simple (e : UInt8) (h : isSimpleEscape e = true) :
    e ≠ 0x75 ∧ ∃ x, unescape e = some x := by
  unfold isSimpleEscape at h
  simp only [Bool.or_eq_true, decide_eq_true_eq] at h
  rcases h with ((((((h | h) | h) | h) | h) | h) | h) | h <;> subst h <;>
    exact ⟨by decide, _, rfl⟩

theorem getu4_shape (s : List UInt8) (r : Nat) (h : getu4 s = some r) :
    ∃ g1 g2 g3 g4 t, s = 0x5C :: 0x75 :: g1 :: g2 :: g3 :: g4 :: t := by
  rcases s with _ | ⟨b, _ | ⟨u, _ | ⟨g1, _ | ⟨g2, _ | ⟨g3, _ | ⟨g4, t⟩⟩⟩⟩⟩⟩
  · simp [getu4] at h
  · simp [getu4] at h
  · simp [getu4] at h
  · simp [getu4] at h
  · simp [getu4] at h
  · simp [getu4] at h
  · simp only [getu4] at h
    split at h
    · rename_i hbu
      exact ⟨g1, g2, g3, g4, t, by rw [hbu.1, hbu.2]⟩
    · cases h

theorem rawString_after_escape (g1 g2 g3 g4 : UInt8) (t : List UInt8)
    (h : rawString .inString (0x5C :: 0x75 :: g1 :: g2 :: g3 :: g4 :: t) = true) :
    rawString .inString t = true := by
  obtain ⟨_, h1 | h1⟩ := rawString_inString_cons _ _ h
  · have h2 := h1.2
    rw [rawString] at h2
    rw [if_neg (by decide), if_pos rfl] at h2
    obtain ⟨a, b, c, d, cs2, rr, heq, _, hr⟩ := rawString_escU _ h2
    injection heq with _ heq
    injection heq with _ heq
    injection heq with _ heq
    injection heq with _ heq
    rw [heq]; exact hr
  · exact absurd rfl h1.1

/-- Every byte string the scanner accepts as the content of a string literal is unquoted
successfully. -/
theorem unquoteFrom_raw (n : Nat) : ∀ (s : List UInt8), s.length ≤ n →
    rawString .inString s = true → ∀ keep, (unquoteFrom keep 0 s).isSome = true := by
  induction n with
  | zero =>
    intro s hs _ keep
    have : s = [] := List.length_eq_zero.mp (Nat.le_zero.mp hs)
    subst this
    simp [unquoteFrom]
  | succ n ih =>
    intro s hs hr keep
    rcases s with _ | ⟨c, cs⟩
    · simp [unquoteFrom]
    · simp only [List.length_cons, Nat.add_le_add_iff_right] at hs
      obtain ⟨hq, ⟨hb, hesc⟩ | ⟨hb, hlt, hin⟩⟩ := rawString_inString_cons c cs hr
      · subst hb
        rcases cs with _ | ⟨e, cs1⟩
        · simp [rawString] at hesc
        · simp only [List.length_cons] at hs
          rw [rawString] at hesc
          unfold unquoteFrom
          simp only [if_true]
          by_cases hs' : isSimpleEscape e = true
          · rw [if_pos hs'] at hesc
            obtain ⟨hne, x, hx⟩ := unescape_of_simple e hs'
            rw [if_neg hne, hx]
            simp only [Option.isSome_map']
            exact ih cs1 (by omega) hesc keep
          · rw [if_neg hs'] at hesc
            by_cases hu : e = 0x75
            · rw [if_pos hu] at hesc
              obtain ⟨h1, h2, h3, h4, cs2, rr, heq, hh, hr2⟩ := rawString_escU _ hesc
              subst heq
              simp only [List.length_cons] at hs
              rw [if_pos hu]
              simp only [hh]
              split
              · split
                · rename_i dec hd
                  simp only [Option.isSome_map']
                  apply unquoteFrom_skip
                  obtain ⟨r1, hg, _⟩ := Option.bind_eq_some.mp hd
                  obtain ⟨g1, g2, g3, g4, t, ht⟩ := getu4_shape cs2 r1 hg
                  subst ht
                  simp only [List.length_cons] at hs
                  simp only [List.drop_succ_cons, List.drop_zero]
                  exact ih t (by omega) (rawString_after_escape _ _ _ _ _ hr2) false
                · simp only [Option.isSome_map']
                  exact ih cs2 (by omega) hr2 keep
              · simp only [Option.isSome_map']
                exact ih cs2 (by omega) hr2 keep
            · rw [if_neg hu] at hesc
              simp at hesc
      · unfold unquoteFrom
        rw [if_neg hb, if_neg (by
          intro h
          rcases h with h | h
          · exact hq h
          · exact hlt h)]
        split
        · simp only [Option.isSome_map']
          exact ih cs hs hin keep
        · split
          · simp only [Option.isSome_map']
            exact ih cs hs hin keep
          · rename_i hw
            simp only [Option.isSome_map']
            apply unquoteFrom_skip
            obtain ⟨pre, post, hcs, hlen, hhigh⟩ := utf8Width_spec c cs hw
            rw [← hlen]
            have hd : List.drop pre.length cs = post := by rw [hcs, List.drop_left]
            rw [hd]
            have hpost : post.length ≤ n := by
              rw [hcs] at hs
              simp only [List.length_append] at hs
              omega
            exact ih post hpost (rawString_drop_high pre post hhigh (hcs ▸ hin)) true

/-- The reader of string literals fails only where the scanner reports a syntax error. -/
theorem parseString_ok_of_scan (bs raw rest : List UInt8)
    (h : scanString bs = some (raw, rest)) : ∃ s, parseString bs = .ok s rest := by
  have hr : rawString .inString raw = true := scanStringFrom_raw _ _ _ _ h
  have hu := unquoteFrom_raw raw.length raw (Nat.le_refl _) hr true
  obtain ⟨s, hs⟩ := Option.isSome_iff_exists.mp hu
  refine ⟨s, ?_⟩
  unfold parseString
  rw [h]
  simp only
  unfold unquote
  rw [hs]

theorem parse_good (fuel : Nat) : ∀ (depth : Nat) (bs : List UInt8),
    (2 * bs.length < fuel → (parseValue fuel depth bs).Good bs.length) ∧
    (2 * bs.length + 1 < fuel → (parseElems fuel depth bs).Good bs.length) ∧
    (2 * bs.length + 1 < fuel → (parseMembers fuel depth bs).Good bs.length) := by
  induction fuel with
  | zero => intro depth bs; refine ⟨?_, ?_, ?_⟩ <;> intro h <;> omega
  | succ fuel ih =>
    intro depth bs
    refine ⟨?_, ?_, ?_⟩
    · intro hf
      unfold parseValue
      split
      · trivial
      · rename_i c cs
        simp only [List.length_cons] at hf ⊢
        split
        · split
          · trivial
          · split
            · trivial
            · rename_i k ks hsk
              have hk : (k :: ks).length ≤ cs.length := hsk ▸ skipSpace_length_le cs
              simp only [List.length_cons] at hk
              split
              · simp only [Parsed.Good]; omega
              · have hm := (ih (depth + 1) (k :: ks)).2.2 (by simp only [List.length_cons]; omega)
                split
                · rename_i ms rest heq
                  rw [heq] at hm
                  simp only [Parsed.Good, List.length_cons] at hm ⊢; omega
                · trivial
                · rename_i heq
                  rw [heq] at hm
                  exact hm.elim
        · split
          · split
            · trivial
            · split
              · trivial
              · rename_i k ks hsk
                have hk : (k :: ks).length ≤ cs.length := hsk ▸ skipSpace_length_le cs
                simp only [List.length_cons] at hk
                split
                · simp only [Parsed.Good]; omega
                · have hm := (ih (depth + 1) (k :: ks)).2.1
                    (by simp only [List.length_cons]; omega)
                  split
                  · rename_i es rest heq
                    rw [heq] at hm
                    simp only [Parsed.Good, List.length_cons] at hm ⊢; omega
                  · trivial
                  · rename_i heq
                    rw [heq] at hm
                    exact hm.elim
          · split
            · split
              · rename_i s rest heq
                have := parseString_length _ _ _ heq
                simp only [Parsed.Good]; omega
              · trivial
              · rename_i heq
                exact (parseString_fuel _ heq).elim
            · split
              · split
                · rename_i lit rest heq
                  have := scanNumber_length _ _ _ heq
                  simp only [Parsed.Good, List.length_cons] at this ⊢; omega
                · trivial
              · split
                · split
                  · rename_i rest heq
                    have := stripPrefix_length _ _ _ heq
                    simp only [Parsed.Good]; omega
                  · trivial
                · split
                  · split
                    · rename_i rest heq
                      have := stripPrefix_length _ _ _ heq
                      simp only [Parsed.Good]; omega
                    · trivial
                  · split
                    · split
                      · rename_i rest heq
                        have := stripPrefix_length _ _ _ heq
                        simp only [Parsed.Good]; omega
                      · trivial
                    · trivial
    · intro hf
      unfold parseElems
      have hv := (ih depth bs).1 (by omega)
      split
      · trivial
      · rename_i heq
        rw [heq] at hv
        exact hv.elim
      · rename_i v rest heq
        rw [heq] at hv
        simp only [Parsed.Good] at hv
        split
        · trivial
        · rename_i k ks hsk
          have hk : (k :: ks).length ≤ rest.length := hsk ▸ skipSpace_length_le rest
          simp only [List.length_cons] at hk
          split
          · have hs := skipSpace_length_le ks
            have he := (ih depth (skipSpace ks)).2.1 (by omega)
            split
            · rename_i es rest1 heq1
              rw [heq1] at he
              simp only [Parsed.Good] at he ⊢; omega
            · trivial
            · rename_i heq1
              rw [heq1] at he
              exact he.elim
          · split
            · simp only [Parsed.Good]; omega
            · trivial
    · intro hf
      unfold parseMembers
      split
      · trivial
      · rename_i q cs
        simp only [List.length_cons] at hf ⊢
        split
        · split
          · trivial
          · rename_i heq
            exact (parseString_fuel _ heq).elim
          · rename_i key rest heq
            have hr := parseString_length _ _ _ heq
            split
            · trivial
            · rename_i k ks hsk
              have hk : (k :: ks).length ≤ rest.length := hsk ▸ skipSpace_length_le rest
              simp only [List.length_cons] at hk
              split
              · have hs := skipSpace_length_le ks
                have hv := (ih depth (skipSpace ks)).1 (by omega)
                split
                · trivial
                · rename_i heq1
                  rw [heq1] at hv
                  exact hv.elim
                · rename_i v rest1 heq1
                  rw [heq1] at hv
                  simp only [Parsed.Good] at hv
                  split
                  · trivial
                  · rename_i t ts hst
                    have ht : (t :: ts).length ≤ rest1.length := hst ▸ skipSpace_length_le rest1
                    simp only [List.length_cons] at ht
                    split
                    · have hs2 := skipSpace_length_le ts
                      have hm := (ih depth (skipSpace ts)).2.2 (by omega)
                      split
                      · rename_i ms rest2 heq2
                        rw [heq2] at hm
                        simp only [Parsed.Good] at hm ⊢; omega
                      · trivial
                      · rename_i heq2
                        rw [heq2] at hm
                        exact hm.elim
                    · split
                      · simp only [Parsed.Good]; omega
                      · trivial
              · trivial
        · trivial

/-- The recursion budget of `parseJSON` is never exhausted. -/
theorem parseJSON_fuel (b : List UInt8) :
    parseValue (2 * b.length + 1) 0 (skipSpace b) ≠ .outOfFuel := by
  have h := (parse_good (2 * b.length + 1) 0 (skipSpace b)).1
    (by have := skipSpace_length_le b; omega)
  intro heq
  rw [heq] at h
  exact h

/-! ## Tokens that are JSON objects -/

theorem parseValue_object_first (fuel depth : Nat) (c : UInt8) (cs : List UInt8)
    (ms : List (GoString × JValue)) (rest : List UInt8)
    (h : parseValue fuel depth (c :: cs) = .ok (.object ms) rest) : c = 0x7B := by
  cases fuel with
  | zero => simp [parseValue] at h
  | succ fuel =>
    by_contra hc
    unfold parseValue at h
    simp only [hc, if_false] at h
    repeat' split at h
    all_goals cases h

theorem parseJSON_object_first (b : List UInt8) (ms : List (GoString × JValue))
    (h : parseJSON b = .ok (.object ms)) :
    ∃ c cs, b = c :: cs ∧ (c = 0x7B ∨ isSpace c = true) := by
  cases b with
  | nil =>
    unfold parseJSON at h
    simp [skipSpace, parseValue] at h
  | cons c cs =>
    refine ⟨c, cs, rfl, ?_⟩
    by_cases hs : isSpace c = true
    · exact Or.inr hs
    · left
      unfold parseJSON at h
      have hsk : skipSpace (c :: cs) = c :: cs := by
        unfold skipSpace; rw [if_neg hs]
      rw [hsk] at h
      split at h
      · rename_i v rest heq
        split at h
        · injection h with h
          subst h
          exact parseValue_object_first _ _ _ _ _ _ heq
        · cases h
      · cases h
      · cases h

theorem Atoi_first_not_digit (c : UInt8) (cs : List UInt8)
    (hp : c ≠ 0x2B) (hm : c ≠ 0x2D) (hd : isDigit c = false) :
    Atoi (c :: cs) = .error .errSyntax := by
  unfold Atoi
  rw [ParseInt_unsigned _ c cs hp hm]
  unfold ParseUint
  simp only
  unfold parseUintLoop
  simp [hd]

theorem object_first_byte (c : UInt8) (h : c = 0x7B ∨ isSpace c = true) :
    c ≠ quote ∧ c ≠ 0x2B ∧ c ≠ 0x2D ∧ isDigit c = false := by
  rcases h with h | h
  · subst h; decide
  · unfold isSpace at h
    simp only [Bool.or_eq_true, decide_eq_true_eq] at h
    rcases h with ((h | h) | h) | h <;> subst h <;> decide

/-- On a token that is a JSON object, `UnmarshalJSON` is `json.Unmarshal` into a fresh
struct. -/
theorem UnmarshalJSON_object_token (d : DynamicDataValue) (b : List UInt8)
    (ms : List (GoString × JValue)) (h : parseJSON b = .ok (.object ms)) :
    UnmarshalJSON d b =
      match decodeMembers ms DataValueFields.zero none with
      | (_, some err) => .returned d (some err)
      | (values, none) => .returned (d.withFields values) none := by
  obtain ⟨c, cs, rfl, hc⟩ := parseJSON_object_first b ms h
  obtain ⟨hq, hp, hm, hd⟩ := object_first_byte c hc
  rw [UnmarshalJSON_not_quoted d c cs hq]
  unfold unmarshalOther
  rw [Atoi_first_not_digit c cs hp hm hd]
  simp only
  unfold Unmarshal
  rw [h]
  simp only
  rcases decodeMembers ms DataValueFields.zero none with ⟨v, _ | e⟩
  · simp [DynamicDataValue.withFields]
  · rfl

/-! ## Rounding to binary64 -/

/-- The result of `roundHalfEven` is within one half of the fraction. -/
theorem roundHalfEven_near (n d : Nat) (hd : 0 < d) :
    2 * ((n : Int) - (roundHalfEven n d : Int) * d).natAbs ≤ d := by
  have hdm := Nat.div_add_mod n d
  have hlt := Nat.mod_lt n hd
  unfold roundHalfEven
  generalize hq : n / d = q at *
  generalize hr : n % d = r at *
  have hn : (n : Int) = (d : Int) * q + r := by exact_mod_cast hdm.symm
  split
  · rename_i h
    have h2 : d ≤ 2 * r := by omega
    have : (n : Int) - ((q + 1 : Nat) : Int) * d = -((d : Int) - r) := by
      rw [hn]; push_cast; ring
    rw [this, Int.natAbs_neg]
    have : ((d : Int) - r).natAbs = d - r := by omega
    rw [this]; omega
  · rename_i h
    have h2 : 2 * r ≤ d := by omega
    have : (n : Int) - (q : Int) * d = r := by rw [hn]; ring
    rw [this, Int.natAbs_ofNat]; exact h2

/-- On a tie `roundHalfEven` gives the even neighbour. -/
theorem roundHalfEven_tie (n d : Nat) (h : 2 * (n % d) = d) : roundHalfEven n d % 2 = 0 := by
  unfold roundHalfEven
  by_cases ho : n / d % 2 = 1
  · rw [if_pos (Or.inr ⟨h, ho⟩)]; omega
  · rw [if_neg (by omega)]; omega

theorem bitLengthFrom_spec (fuel n : Nat) (hf : n ≤ fuel) (hn : 0 < n) :
    2 ^ (bitLengthFrom fuel n - 1) ≤ n ∧ n < 2 ^ bitLengthFrom fuel n := by
  induction fuel generalizing n with
  | zero => omega
  | succ fuel ih =>
    unfold bitLengthFrom
    rw [if_neg (by omega)]
    simp only [Nat.add_sub_cancel]
    by_cases h1 : n / 2 = 0
    · have hn1 : n = 1 := by omega
      subst hn1
      cases fuel <;> simp [bitLengthFrom]
    · have := ih (n / 2) (by omega) (by omega)
      have hpos : 0 < bitLengthFrom fuel (n / 2) := by
        by_contra hc
        have h0 : bitLengthFrom fuel (n / 2) = 0 := by omega
        rw [h0] at this
        simp at this
        omega
      obtain ⟨k, hk⟩ : ∃ k, bitLengthFrom fuel (n / 2) = k + 1 := ⟨_, (Nat.succ_pred_eq_of_pos hpos).symm⟩
      rw [hk] at this ⊢
      simp only [Nat.add_sub_cancel] at this
      constructor
      · rw [pow_succ]; omega
      · rw [pow_succ]; omega

/-- The function `bitLength` counts the binary digits. -/
theorem bitLength_spec (n : Nat) (hn : 0 < n) :
    2 ^ (bitLength n - 1) ≤ n ∧ n < 2 ^ bitLength n :=
  bitLengthFrom_spec n n (Nat.le_refl n) hn

/-- Comparison of a fraction of naturals with a power of two, for an exponent of either
sign. -/
theorem zpow_le_div_iff (num den : Nat) (hd : 0 < den) (e : Int) :
    ((2 : ℚ) ^ e ≤ (num : ℚ) / den) ↔
      (if 0 ≤ e then den * 2 ^ e.toNat ≤ num else den ≤ num * 2 ^ (-e).toNat) := by
  have hdq : (0 : ℚ) < den := by exact_mod_cast hd
  split
  · rename_i he
    obtain ⟨k, rfl⟩ := Int.eq_ofNat_of_zero_le he
    simp only [Int.toNat_ofNat, zpow_natCast]
    rw [le_div_iff₀ hdq]
    constructor
    · intro h
      have : ((2 ^ k * den : Nat) : ℚ) ≤ (num : ℚ) := by push_cast; exact h
      have := Nat.cast_le.mp this
      rw [Nat.mul_comm]; exact this
    · intro h
      have : ((2 ^ k * den : Nat) : ℚ) ≤ (num : ℚ) := by
        apply Nat.cast_le.mpr; rw [Nat.mul_comm]; exact h
      push_cast at this; exact this
  · rename_i he
    obtain ⟨k, hk⟩ := Int.eq_ofNat_of_zero_le (show 0 ≤ -e by omega)
    have he' : e = -(k : Int) := by omega
    subst he'
    simp only [neg_neg, Int.toNat_ofNat, zpow_neg, zpow_natCast]
    have hp : (0 : ℚ) < 2 ^ k := by positivity
    rw [le_div_iff₀ hdq, inv_mul_le_iff₀ hp]
    constructor
    · intro h
      have : ((den : Nat) : ℚ) ≤ ((num * 2 ^ k : Nat) : ℚ) := by
        push_cast; linarith
      exact Nat.cast_le.mp this
    · intro h
      have : ((den : Nat) : ℚ) ≤ ((num * 2 ^ k : Nat) : ℚ) := Nat.cast_le.mpr h
      push_cast at this; linarith

/-- The function `binaryExponent` gives the binary exponent of the fraction. -/
theorem binaryExponent_spec (num den : Nat) (hn : 0 < num) (hd : 0 < den) :
    (2 : ℚ) ^ binaryExponent num den ≤ (num : ℚ) / den ∧
      (num : ℚ) / den < (2 : ℚ) ^ (binaryExponent num den + 1) := by
  obtain ⟨ha1, ha2⟩ := bitLength_spec num hn
  obtain ⟨hb1, hb2⟩ := bitLength_spec den hd
  have hapos : 0 < bitLength num := by
    by_contra h
    have : bitLength num = 0 := by omega
    rw [this] at ha2; simp at ha2; omega
  have hbpos : 0 < bitLength den := by
    by_contra h
    have : bitLength den = 0 := by omega
    rw [this] at hb2; simp at hb2; omega
  obtain ⟨a, ha⟩ : ∃ a, bitLength num = a + 1 := ⟨_, (Nat.succ_pred_eq_of_pos hapos).symm⟩
  obtain ⟨b, hb⟩ : ∃ b, bitLength den = b + 1 := ⟨_, (Nat.succ_pred_eq_of_pos hbpos).symm⟩
  rw [ha] at ha1 ha2
  rw [hb] at hb1 hb2
  simp only [Nat.add_sub_cancel] at ha1 hb1
  have hdq : (0 : ℚ) < den := by exact_mod_cast hd
  have hnq : (0 : ℚ) < num := by exact_mod_cast hn
  have qa1 : (2 : ℚ) ^ a ≤ num := by exact_mod_cast ha1
  have qa2 : (num : ℚ) < 2 ^ (a + 1) := by exact_mod_cast ha2
  have qb1 : (2 : ℚ) ^ b ≤ den := by exact_mod_cast hb1
  have qb2 : (den : ℚ) < 2 ^ (b + 1) := by exact_mod_cast hb2
  have e0 : ((bitLength num : Int) - (bitLength den : Int)) = (a : Int) - b := by
    rw [ha, hb]; push_cast; ring
  -- bounds of the fraction by the neighbouring powers
  have hlow : (2 : ℚ) ^ ((a : Int) - b - 1) < (num : ℚ) / den := by
    rw [lt_div_iff₀ hdq]
    have : (2 : ℚ) ^ ((a : Int) - b - 1) * 2 ^ (b + 1) = 2 ^ a := by
      rw [← zpow_natCast (2 : ℚ) (b + 1), ← zpow_add₀ (by norm_num : (2 : ℚ) ≠ 0),
        ← zpow_natCast (2 : ℚ) a]
      congr 1; push_cast; ring
    have hp : (0 : ℚ) < 2 ^ ((a : Int) - b - 1) := by positivity
    calc (2 : ℚ) ^ ((a : Int) - b - 1) * den < 2 ^ ((a : Int) - b - 1) * 2 ^ (b + 1) :=
          mul_lt_mul_of_pos_left qb2 hp
      _ = 2 ^ a := this
      _ ≤ num := qa1
  have hhigh : (num : ℚ) / den < (2 : ℚ) ^ ((a : Int) - b + 1) := by
    rw [div_lt_iff₀ hdq]
    have : (2 : ℚ) ^ ((a : Int) - b + 1) * 2 ^ b = 2 ^ (a + 1) := by
      rw [← zpow_natCast (2 : ℚ) b, ← zpow_add₀ (by norm_num : (2 : ℚ) ≠ 0),
        ← zpow_natCast (2 : ℚ) (a + 1)]
      congr 1; push_cast; ring
    have hp : (0 : ℚ) < 2 ^ ((a : Int) - b + 1) := by positivity
    calc (num : ℚ) < 2 ^ (a + 1) := qa2
      _ = 2 ^ ((a : Int) - b + 1) * 2 ^ b := this.symm
      _ ≤ 2 ^ ((a : Int) - b + 1) * den := mul_le_mul_of_nonneg_left qb1 hp.le
  unfold binaryExponent
  simp only [e0]
  have hiff := zpow_le_div_iff num den hd ((a : Int) - b)
  by_cases hr : (2 : ℚ) ^ ((a : Int) - b) ≤ (num : ℚ) / den
  · have hcond := hiff.mp hr
    have : (if (0 : Int) ≤ (a : Int) - b then decide (den * 2 ^ ((a : Int) - b).toNat ≤ num)
        else decide (den ≤ num * 2 ^ (-((a : Int) - b)).toNat)) = true := by
      split <;> rename_i h <;> simp only [h, if_true, if_false] at hcond <;> simpa using hcond
    rw [this]
    simp only [if_true]
    exact ⟨hr, hhigh⟩
  · have hcond := fun h => hr (hiff.mpr h)
    have : (if (0 : Int) ≤ (a : Int) - b then decide (den * 2 ^ ((a : Int) - b).toNat ≤ num)
        else decide (den ≤ num * 2 ^ (-((a : Int) - b)).toNat)) = false := by
      split <;> rename_i h <;> simp only [h, if_true, if_false] at hcond <;> simpa using hcond
    rw [this]
    simp only [Bool.false_eq_true, if_false]
    refine ⟨hlow.le, ?_⟩
    rw [sub_add_cancel]
    exact lt_of_not_le hr

theorem roundHalfEven_le (n d K : Nat) (hd : 0 < d) (h : n < K * d) :
    roundHalfEven n d ≤ K := by
  have hf : n / d < K := (Nat.div_lt_iff_lt_mul hd).mpr h
  unfold roundHalfEven
  split <;> omega

theorem le_roundHalfEven (n d K : Nat) (hd : 0 < d) (h : K * d ≤ n) :
    K ≤ roundHalfEven n d := by
  have hf : K ≤ n / d := (Nat.le_div_iff_mul_le hd).mpr h
  unfold roundHalfEven
  split <;> omega

/-- The scaled fraction `num / (den * 2^q)`, as two naturals, for an exponent `q` of either
sign. -/
theorem scaled_fraction (num den : Nat) (hd : 0 < den) (q : Int) :
    ∃ n' d' : Nat, 0 < d' ∧ ((n' : ℚ) / d' = (num : ℚ) / den / (2 : ℚ) ^ q) ∧
      (if 0 ≤ q then roundHalfEven num (den * 2 ^ q.toNat)
        else roundHalfEven (num * 2 ^ (-q).toNat) den) = roundHalfEven n' d' := by
  have hdq : (0 : ℚ) < den := by exact_mod_cast hd
  by_cases hq : 0 ≤ q
  · obtain ⟨k, rfl⟩ := Int.eq_ofNat_of_zero_le hq
    refine ⟨num, den * 2 ^ k, by positivity, ?_, by simp⟩
    push_cast
    rw [zpow_natCast, div_div]
  · obtain ⟨k, hk⟩ := Int.eq_ofNat_of_zero_le (show 0 ≤ -q by omega)
    have hq' : q = -(k : Int) := by omega
    subst hq'
    refine ⟨num * 2 ^ k, den, hd, ?_, ?_⟩
    · push_cast
      rw [zpow_neg, zpow_natCast, div_inv_eq_mul]
      ring
    · rw [if_neg hq]
      simp

/-- The function `roundFloat64` rounds to the nearest number of the format: its result is
in canonical form and differs from the fraction by at most half a unit in the last
place. -/
theorem roundFloat64_spec (num den : Nat) (hn : 0 < num) (hd : 0 < den) :
    (roundFloat64 num den).1 < 2 ^ 53 ∧ -1074 ≤ (roundFloat64 num den).2 ∧
    ((roundFloat64 num den).2 = -1074 ∨ 2 ^ 52 ≤ (roundFloat64 num den).1) ∧
    |(num : ℚ) / den - (roundFloat64 num den).1 * (2 : ℚ) ^ (roundFloat64 num den).2| ≤
      (2 : ℚ) ^ (roundFloat64 num den).2 / 2 := by
  obtain ⟨he1, he2⟩ := binaryExponent_spec num den hn hd
  unfold roundFloat64
  rw [if_neg (by omega)]
  simp only
  generalize hq : max (binaryExponent num den) (-1022) - 52 = q
  obtain ⟨n', d', hd', hs, hround⟩ := scaled_fraction num den hd q
  rw [hround]
  have hd'q : (0 : ℚ) < d' := by exact_mod_cast hd'
  have h2q : (0 : ℚ) < (2 : ℚ) ^ q := by positivity
  set v : ℚ := (num : ℚ) / den with hv
  -- the scaled fraction is below 2^53
  have hs_lt : (n' : ℚ) / d' < 2 ^ 53 := by
    rw [hs, div_lt_iff₀ h2q]
    have : (2 : ℚ) ^ (53 : Nat) * 2 ^ q = 2 ^ (q + 53) := by
      rw [← zpow_natCast (2 : ℚ) 53, ← zpow_add₀ (by norm_num : (2 : ℚ) ≠ 0)]
      congr 1; push_cast; ring
    rw [this]
    refine lt_of_lt_of_le he2 ?_
    apply zpow_le_zpow_right₀ (by norm_num)
    omega
  have hn_lt : n' < 2 ^ 53 * d' := by
    rw [div_lt_iff₀ hd'q] at hs_lt
    exact_mod_cast hs_lt
  have hm_le : roundHalfEven n' d' ≤ 2 ^ 53 := roundHalfEven_le n' d' _ hd' hn_lt
  -- for a normal number it is at least 2^52
  have hm_ge : -1022 ≤ binaryExponent num den → 2 ^ 52 ≤ roundHalfEven n' d' := by
    intro hnorm
    apply le_roundHalfEven n' d' _ hd'
    have hqe : q = binaryExponent num den - 52 := by omega
    have : (2 : ℚ) ^ (52 : Nat) ≤ (n' : ℚ) / d' := by
      rw [hs, le_div_iff₀ h2q]
      have : (2 : ℚ) ^ (52 : Nat) * 2 ^ q = 2 ^ (q + 52) := by
        rw [← zpow_natCast (2 : ℚ) 52, ← zpow_add₀ (by norm_num : (2 : ℚ) ≠ 0)]
        congr 1; push_cast; ring
      rw [this]
      have : q + 52 = binaryExponent num den := by omega
      rw [this]; exact he1
    rw [le_div_iff₀ hd'q] at this
    exact_mod_cast this
  -- the rounding error
  have hnear := roundHalfEven_near n' d' hd'
  have herr : |v - (roundHalfEven n' d' : ℚ) * (2 : ℚ) ^ q| ≤ (2 : ℚ) ^ q / 2 := by
    have hvs : v = (n' : ℚ) / d' * 2 ^ q := by
      rw [hs]; field_simp
    have h1 : |(n' : ℚ) - (roundHalfEven n' d' : ℚ) * d'| * 2 ≤ d' := by
      have : ((2 * ((n' : Int) - (roundHalfEven n' d' : Int) * d').natAbs : Nat) : ℚ) ≤ (d' : ℚ) :=
        Nat.cast_le.mpr hnear
      push_cast at this
      rw [Nat.cast_natAbs] at this
      push_cast at this
      linarith
    have h2 : |(n' : ℚ) / d' - (roundHalfEven n' d' : ℚ)| ≤ 1 / 2 := by
      have : (n' : ℚ) / d' - (roundHalfEven n' d' : ℚ) =
          ((n' : ℚ) - (roundHalfEven n' d' : ℚ) * d') / d' := by
        field_simp
        ring
      rw [this, abs_div, abs_of_pos hd'q, div_le_iff₀ hd'q]
      linarith
    have : v - (roundHalfEven n' d' : ℚ) * (2 : ℚ) ^ q =
        ((n' : ℚ) / d' - (roundHalfEven n' d' : ℚ)) * 2 ^ q := by rw [hvs]; ring
    rw [this, abs_mul, abs_of_pos h2q]
    calc |(n' : ℚ) / d' - (roundHalfEven n' d' : ℚ)| * 2 ^ q ≤ 1 / 2 * 2 ^ q :=
          mul_le_mul_of_nonneg_right h2 h2q.le
      _ = 2 ^ q / 2 := by ring
  have hq_ge : -1074 ≤ q := by omega
  by_cases hc : roundHalfEven n' d' = 2 ^ 53
  · rw [if_pos hc]
    simp only
    refine ⟨by norm_num, by omega, Or.inr (le_refl _), ?_⟩
    have hval : ((2 ^ 52 : Nat) : ℚ) * (2 : ℚ) ^ (q + 1) = ((2 ^ 53 : Nat) : ℚ) * 2 ^ q := by
      rw [zpow_add₀ (by norm_num : (2 : ℚ) ≠ 0)]
      push_cast; ring
    rw [hval, ← hc]
    refine le_trans herr ?_
    rw [zpow_add₀ (by norm_num : (2 : ℚ) ≠ 0)]
    have : (0 : ℚ) ≤ 2 ^ q := h2q.le
    simp only [zpow_one]
    linarith
  · rw [if_neg hc]
    simp only
    refine ⟨lt_of_le_of_ne hm_le hc, hq_ge, ?_, herr⟩
    by_cases hnorm : -1022 ≤ binaryExponent num den
    · exact Or.inr (hm_ge hnorm)
    · left; omega

/-- The function `ParseFloat` on some literals: zero in three spellings, exactly
representable numbers, numbers that are rounded, and a tie that goes to the even
neighbour (`2^53 + 1` becomes `2^53`). -/
theorem ParseFloat_examples :
    ParseFloat (bytes "0") = .ok Float64.zero ∧
    ParseFloat (bytes "0.0") = .ok Float64.zero ∧
    ParseFloat (bytes "-0.0") = .ok ⟨true, 0, -1074⟩ ∧
    ParseFloat (bytes "1") = .ok ⟨false, 2 ^ 52, -52⟩ ∧
    ParseFloat (bytes "-12.5e-1") = .ok ⟨true, 5 * 2 ^ 50, -52⟩ ∧
    ParseFloat (bytes "0.1") = .ok ⟨false, 0x1999999999999A, -56⟩ ∧
    ParseFloat (bytes "1e23") = .ok ⟨false, 0x152D02C7E14AF6, 24⟩ ∧
    ParseFloat (bytes "9007199254740992") = .ok ⟨false, 2 ^ 52, 1⟩ ∧
    ParseFloat (bytes "9007199254740993") = .ok ⟨false, 2 ^ 52, 1⟩ ∧
    ParseFloat (bytes "9007199254740995") = .ok ⟨false, 2 ^ 52 + 2, 1⟩ := by
  refine ⟨by decide, by decide, by decide, by decide, by decide, by decide, by decide,
    by decide, by decide, by decide⟩

set_option maxRecDepth 100000 in
set_option exponentiation.threshold 2000 in
/-- The function `ParseFloat` at the ends of the range: the largest finite number, the
overflow just above it, the smallest subnormal number and the underflow to zero, and the
two numbers around the smallest normal one. -/
theorem ParseFloat_range_examples :
    ParseFloat (bytes "1.7976931348623157e308") = .ok ⟨false, 2 ^ 53 - 1, 971⟩ ∧
    ParseFloat (bytes "1.7976931348623159e308") = .error .errRange ∧
    ParseFloat (bytes "1e400") = .error .errRange ∧
    ParseFloat (bytes "5e-324") = .ok ⟨false, 1, -1074⟩ ∧
    ParseFloat (bytes "2e-324") = .ok ⟨false, 0, -1074⟩ ∧
    ParseFloat (bytes "-1e-400") = .ok ⟨true, 0, -1074⟩ ∧
    ParseFloat (bytes "2.2250738585072014e-308") = .ok ⟨false, 2 ^ 52, -1074⟩ ∧
    ParseFloat (bytes "2.2250738585072011e-308") = .ok ⟨false, 2 ^ 52 - 1, -1074⟩ := by
  refine ⟨by decide, by decide, by decide, by decide, by decide, by decide, by decide,
    by decide⟩

/-- A negative zero is stored as such; it is another datum than the zero value, and equal
to it for Go's `==`, on the field and on the struct. -/
theorem negative_zero_example :
    UnmarshalJSON DynamicDataValue.zero (bytes "\x7b\"precision\":-0.0\x7d") =
      .returned (DynamicDataValue.zero.withFields
        { DataValueFields.zero with Precision := ⟨true, 0, -1074⟩ }) none ∧
    (⟨true, 0, -1074⟩ : Float64) ≠ Float64.zero ∧
    Float64.eq ⟨true, 0, -1074⟩ Float64.zero = true ∧
    DataValueFields.eq { DataValueFields.zero with Precision := ⟨true, 0, -1074⟩ }
      DataValueFields.zero = true := by
  refine ⟨by decide, by decide, by decide, by decide⟩

/-! ## Reading and writing fields -/

theorem get_setString (v : DataValueFields) (f g : Field) (s : GoString) :
    (v.setString f s).get g = if g = f ∧ f.kind = .string then .str s else v.get g := by
  cases f <;> cases g <;> rfl

theorem get_setInt (v : DataValueFields) (f g : Field) (i : Int) :
    (v.setInt f i).get g = if g = f ∧ f.kind = .int then .int i else v.get g := by
  cases f <;> cases g <;> rfl

theorem get_setFloat (v : DataValueFields) (f g : Field) (x : Float64) :
    (v.setFloat f x).get g = if g = f ∧ f.kind = .float64 then .float x else v.get g := by
  cases f <;> cases g <;> rfl

theorem findField_name (f : Field) : findField f.name = some f := by
  cases f <;> decide

/-- A value of the declared type is stored, without error, and no other field changes. -/
theorem storeValue_given (f : Field) (jv : JValue) (v : DataValueFields) (x : FieldValue)
    (h : givenValue f.kind jv = some x) :
    (storeValue f jv v).2 = none ∧
    ∀ g, (storeValue f jv v).1.get g = if g = f then x else v.get g := by
  unfold givenValue at h
  cases hk : f.kind with
  | string =>
    rw [hk] at h
    cases jv <;> simp at h
    subst h
    unfold storeValue
    simp only [hk]
    refine ⟨by simp, fun g => ?_⟩
    rw [get_setString]
    simp [hk]
  | int =>
    rw [hk] at h
    cases jv <;> simp at h
    rename_i lit
    obtain ⟨⟨hl, hlo, hhi⟩, hx⟩ := h
    subst hx
    have hP : ParseInt lit 64 = .ok (intLiteralValue lit) :=
      ParseInt_intLiteral 64 (by decide) lit hl (by simpa using hlo) (by simpa using hhi)
    unfold storeValue
    simp only [hk, hP]
    have hr : -(2 ^ (intSize - 1) : Int) ≤ intLiteralValue lit ∧
        intLiteralValue lit < 2 ^ (intSize - 1) := by
      unfold intSize
      exact ⟨by simpa using hlo, by simpa using hhi⟩
    rw [if_pos hr]
    refine ⟨by simp, fun g => ?_⟩
    rw [get_setInt]
    simp [hk]
  | float64 =>
    rw [hk] at h
    cases jv <;> simp at h
    rename_i lit
    cases hP : ParseFloat lit with
    | error e => rw [hP] at h; simp at h
    | ok y =>
      rw [hP] at h
      simp only [Option.some.injEq] at h
      subst h
      unfold storeValue
      simp only [hk, hP]
      refine ⟨by simp, fun g => ?_⟩
      rw [get_setFloat]
      simp [hk]

/-! ## Decoding the members of an object -/

theorem lastMember_cons (f : Field) (k : GoString) (jv : JValue)
    (ms : List (GoString × JValue)) :
    lastMember f ((k, jv) :: ms) =
      match lastMember f ms with
      | some x => some x
      | none => if findField k = some f then some jv else none := by
  unfold lastMember
  rw [List.filter_cons]
  by_cases hk : findField k = some f
  · simp only [hk, decide_True, if_true]
    cases hl : (List.filter (fun m => decide (findField m.1 = some f)) ms).getLast? with
    | none =>
      rw [List.getLast?_eq_none_iff] at hl
      simp [hl]
    | some y =>
      have hne : List.filter (fun m => decide (findField m.1 = some f)) ms ≠ [] := by
        intro h; rw [h] at hl; simp at hl
      obtain ⟨a, l, hal⟩ := List.exists_cons_of_ne_nil hne
      rw [hal] at hl ⊢
      rw [List.getLast?_cons_cons, hl]
      rfl
  · simp only [hk, decide_False, if_false, Bool.false_eq_true]
    cases hl : (List.filter (fun m => decide (findField m.1 = some f)) ms).getLast? <;> rfl

theorem decodeMembers_given (ms : List (GoString × JValue)) (v : DataValueFields)
    (ht : ∀ m ∈ ms, ∀ f, findField m.1 = some f → HasDeclaredType f.kind m.2) :
    (decodeMembers ms v none).2 = none ∧
    ∀ g, FieldAsGiven (v.get g) g ms ((decodeMembers ms v none).1.get g) := by
  induction ms generalizing v with
  | nil =>
    refine ⟨rfl, fun g => ?_⟩
    simp [FieldAsGiven, lastMember, decodeMembers]
  | cons m ms ih =>
    obtain ⟨k, jv⟩ := m
    have ht' : ∀ m ∈ ms, ∀ f, findField m.1 = some f → HasDeclaredType f.kind m.2 :=
      fun m hm => ht m (List.mem_cons_of_mem _ hm)
    unfold decodeMembers
    cases hk : findField k with
    | none =>
      simp only
      obtain ⟨h1, h2⟩ := ih v ht'
      refine ⟨h1, fun g => ?_⟩
      have := h2 g
      unfold FieldAsGiven at this ⊢
      rw [lastMember_cons, hk]
      cases hl : lastMember g ms with
      | none => rw [hl] at this; simpa using this
      | some y => rw [hl] at this; simpa using this
    | some f =>
      simp only
      have hd : HasDeclaredType f.kind jv := ht (k, jv) (List.mem_cons_self _ _) f hk
      unfold HasDeclaredType at hd
      obtain ⟨x, hx⟩ := Option.isSome_iff_exists.mp hd
      obtain ⟨hs1, hs2⟩ := storeValue_given f jv v x hx
      rw [hs1]
      have hsave : saveError none none = none := rfl
      rw [hsave]
      obtain ⟨h1, h2⟩ := ih (storeValue f jv v).1 ht'
      refine ⟨h1, fun g => ?_⟩
      have := h2 g
      unfold FieldAsGiven at this ⊢
      rw [lastMember_cons, hk]
      cases hl : lastMember g ms with
      | some y => rw [hl] at this; simpa using this
      | none =>
        rw [hl] at this
        simp only at this ⊢
        rw [this, hs2 g]
        by_cases hg : g = f
        · subst hg; simpa using hx
        · have : ¬ (some f = some g) := fun h => hg (Option.some.inj h).symm
          simp [hg, this]

theorem saveError_some (e : JSONError) (new : Option JSONError) :
    saveError (some e) new = some e := rfl

theorem decodeMembers_saved (ms : List (GoString × JValue)) (v : DataValueFields)
    (e : JSONError) : (decodeMembers ms v (some e)).2 = some e := by
  induction ms generalizing v with
  | nil => rfl
  | cons m ms ih =>
    obtain ⟨k, jv⟩ := m
    unfold decodeMembers
    cases findField k with
    | none => exact ih v
    | some f => simp only [saveError_some]; exact ih _

theorem storeValue_wrong (f : Field) (jv : JValue) (v : DataValueFields)
    (h : WrongScalarType f.kind jv) : ∃ e, (storeValue f jv v).2 = some e := by
  unfold WrongScalarType at h
  unfold storeValue
  cases hk : f.kind <;> cases jv <;> simp_all

theorem decodeMembers_wrong (ms : List (GoString × JValue)) (v : DataValueFields)
    (saved : Option JSONError) (key : GoString) (jv : JValue) (f : Field)
    (hm : (key, jv) ∈ ms) (hk : findField key = some f) (hw : WrongScalarType f.kind jv) :
    ∃ e, (decodeMembers ms v saved).2 = some e := by
  cases saved with
  | some e => exact ⟨e, decodeMembers_saved ms v e⟩
  | none =>
    induction ms generalizing v with
    | nil => simp at hm
    | cons m ms ih =>
      obtain ⟨k, j⟩ := m
      unfold decodeMembers
      rcases List.mem_cons.mp hm with heq | hin
      · injection heq with h1 h2
        subst h1; subst h2
        simp only [hk]
        obtain ⟨e, he⟩ := storeValue_wrong f jv v hw
        rw [he]
        exact ⟨e, decodeMembers_saved _ _ e⟩
      · cases hf : findField k with
        | none => exact ih v hin
        | some g =>
          simp only
          cases hs : (storeValue g j v).2 with
          | none => exact ih _ hin
          | some e => exact ⟨e, decodeMembers_saved _ _ e⟩

theorem membersTyped_sound (ms : List (GoString × JValue)) (h : membersTyped ms = true) :
    ∀ m ∈ ms, ∀ f, findField m.1 = some f → HasDeclaredType f.kind m.2 := by
  intro m hm f hf
  unfold membersTyped at h
  rw [List.all_eq_true] at h
  have := h m hm
  rw [hf] at this
  exact this

/-- C3 (amended). For every token that is a JSON object in which every member decoded into
a field of `DataValueFields` (a member whose key is the name of the field, exactly or up to
the case folding of `encoding/json`) carries a value of the declared scalar type of that
field, all other members being ignored, `UnmarshalJSON` succeeds, sets `Type` to
"DataValueFields", sets `ValueFields` so that each field has the value of the last member
decoded into it (for a float64 field the binary64 nearest to the number) and its zero
default when there is none, and sets `Data` equal to `ValueFields`. -/
theorem UnmarshalJSON_object (d : DynamicDataValue) (b : List UInt8)
    (ms : List (GoString × JValue)) (hp : parseJSON b = .ok (.object ms))
    (ht : ∀ m ∈ ms, ∀ f, findField m.1 = some f → HasDeclaredType f.kind m.2) :
    ∃ vf, UnmarshalJSON d b = .returned
        { d with Type_ := bytes "DataValueFields", ValueFields := vf,
                 Data := .dataValueFields vf } none ∧
      ∀ f, FieldAsGiven (DataValueFields.zero.get f) f ms (vf.get f) := by
  obtain ⟨h1, h2⟩ := decodeMembers_given ms DataValueFields.zero ht
  refine ⟨(decodeMembers ms DataValueFields.zero none).1, ?_, h2⟩
  rw [UnmarshalJSON_object_token d b ms hp]
  rcases hdm : decodeMembers ms DataValueFields.zero none with ⟨v, e⟩
  rw [hdm] at h1
  simp only at h1
  subst h1
  simp [DynamicDataValue.withFields]

theorem UnmarshalJSON_object_witness :
    (∃ vf, UnmarshalJSON DynamicDataValue.zero
        (bytes "\x7b\"entity-type\":\"item\",\"numeric-id\":42,\"id\":\"Q42\"\x7d") =
        .returned { DynamicDataValue.zero with
          Type_ := bytes "DataValueFields", ValueFields := vf,
          Data := .dataValueFields vf } none ∧
      ∀ f, FieldAsGiven (DataValueFields.zero.get f) f
        [(bytes "entity-type", .string (bytes "item")), (bytes "numeric-id", .number (bytes "42")),
         (bytes "id", .string (bytes "Q42"))] (vf.get f)) ∧
    (∃ vf, UnmarshalJSON DynamicDataValue.zero (bytes "\x7b\"amount\":\"+1\",\"unit\":\"1\"\x7d") =
        .returned { DynamicDataValue.zero with
          Type_ := bytes "DataValueFields", ValueFields := vf,
          Data := .dataValueFields vf } none ∧
      ∀ f, FieldAsGiven (DataValueFields.zero.get f) f
        [(bytes "amount", .string (bytes "+1")), (bytes "unit", .string (bytes "1"))]
        (vf.get f)) ∧
    UnmarshalJSON DynamicDataValue.zero
        (bytes "\x7b\"entity-type\":\"item\",\"numeric-id\":42,\"id\":\"Q42\"\x7d") =
      .returned (DynamicDataValue.zero.withFields
        { DataValueFields.zero with
          EntityType := bytes "item", NumericID := 42, ID := bytes "Q42" }) none ∧
    UnmarshalJSON DynamicDataValue.zero (bytes "\x7b\"amount\":\"+1\",\"unit\":\"1\"\x7d") =
      .returned (DynamicDataValue.zero.withFields
        { DataValueFields.zero with Amount := bytes "+1", Unit := bytes "1" }) none ∧
    (∃ vf, UnmarshalJSON DynamicDataValue.zero (bytes "\x7b\"latitude\":9007199254740993\x7d") =
        .returned { DynamicDataValue.zero with
          Type_ := bytes "DataValueFields", ValueFields := vf,
          Data := .dataValueFields vf } none ∧
      ∀ f, FieldAsGiven (DataValueFields.zero.get f) f
        [(bytes "latitude", .number (bytes "9007199254740993"))] (vf.get f)) ∧
    UnmarshalJSON DynamicDataValue.zero (bytes "\x7b\"latitude\":9007199254740993\x7d") =
      .returned (DynamicDataValue.zero.withFields
        { DataValueFields.zero with Latitude := ⟨false, 2 ^ 52, 1⟩ }) none ∧
    UnmarshalJSON DynamicDataValue.zero (bytes "\x7b\"precision\":0.0\x7d") =
      .returned (DynamicDataValue.zero.withFields DataValueFields.zero) none :=
  ⟨UnmarshalJSON_object DynamicDataValue.zero _ _ rfl (membersTyped_sound _ rfl),
   UnmarshalJSON_object DynamicDataValue.zero _ _ rfl (membersTyped_sound _ rfl),
   by decide, by decide,
   UnmarshalJSON_object DynamicDataValue.zero _ _ rfl (membersTyped_sound _ rfl),
   by decide, by decide⟩

/-- C3 (counterexample). The token `{"ID":5}` is a JSON object none of whose members has
the name of a field of `DataValueFields`, yet `UnmarshalJSON` returns an error on it: the
key `ID` is matched with the field named `id` without regard to case, and a number is not
accepted for a string field. -/
theorem object_case_insensitive_counterexample :
    parseJSON (bytes "\x7b\"ID\":5\x7d") = .ok (.object [(bytes "ID", .number (bytes "5"))]) ∧
    (∀ f : Field, f.name ≠ bytes "ID") ∧
    UnmarshalJSON DynamicDataValue.zero (bytes "\x7b\"ID\":5\x7d") =
      .returned DynamicDataValue.zero (some (.unmarshalTypeError (bytes "number"))) := by
  refine ⟨rfl, ?_, by decide⟩
  intro f
  cases f <;> decide

/-- C4. For every token that is a JSON object in which a member named after a field of
`DataValueFields` (or decoded into that field by case folding) carries a value of another
JSON type than the field declares, such as a string in an integer field or a number in a
string field, `UnmarshalJSON` returns an error and leaves the receiver as it was. -/
theorem UnmarshalJSON_type_mismatch (d : DynamicDataValue) (b : List UInt8)
    (ms : List (GoString × JValue)) (key : GoString) (jv : JValue) (f : Field)
    (hp : parseJSON b = .ok (.object ms)) (hm : (key, jv) ∈ ms)
    (hk : key = f.name ∨ findField key = some f) (hw : WrongScalarType f.kind jv) :
    ∃ e, UnmarshalJSON d b = .returned d (some e) := by
  have hk' : findField key = some f := by
    rcases hk with h | h
    · rw [h]; exact findField_name f
    · exact h
  obtain ⟨e, he⟩ := decodeMembers_wrong ms DataValueFields.zero none key jv f hm hk' hw
  refine ⟨e, ?_⟩
  rw [UnmarshalJSON_object_token d b ms hp]
  rcases hdm : decodeMembers ms DataValueFields.zero none with ⟨v, e'⟩
  rw [hdm] at he
  simp only at he
  subst he
  rfl

theorem UnmarshalJSON_type_mismatch_witness :
    ∃ e, UnmarshalJSON DynamicDataValue.zero (bytes "\x7b\"numeric-id\":\"not-a-number\"\x7d") =
      .returned DynamicDataValue.zero (some e) :=
  UnmarshalJSON_type_mismatch DynamicDataValue.zero
    (bytes "\x7b\"numeric-id\":\"not-a-number\"\x7d")
    [(bytes "numeric-id", .string (bytes "not-a-number"))] (bytes "numeric-id")
    (.string (bytes "not-a-number")) .numericID rfl (List.mem_singleton.mpr rfl)
    (Or.inl rfl) trivial

theorem goIndex_last (c : UInt8) (cs : List UInt8) :
    goIndex (c :: cs) (((c :: cs).length : Int) - 1) = (c :: cs).getLast? := by
  have : (((c :: cs).length : Int) - 1) = ((cs.length : Nat) : Int) := by simp
  rw [this]
  unfold goIndex
  rw [if_neg (by omega)]
  simp only [Int.toNat_ofNat]
  rw [List.getLast?_eq_getElem?]
  simp

theorem UnmarshalJSON_unquoted (d : DynamicDataValue) (b : List UInt8) (hne : b ≠ [])
    (hq : ¬ (b.head? = some quote ∧ b.getLast? = some quote)) :
    UnmarshalJSON d b = unmarshalOther d b := by
  cases b with
  | nil => exact absurd rfl hne
  | cons c cs =>
    by_cases hc : c = quote
    · subst hc
      have hl : (quote :: cs).getLast? ≠ some quote := fun h => hq ⟨rfl, h⟩
      unfold UnmarshalJSON
      simp only [goIndex_last]
      have h0 : goIndex (quote :: cs) 0 = some quote := by simp [goIndex]
      rw [h0]
      simp only [if_true]
      cases hg : (quote :: cs).getLast? with
      | none => simp at hg
      | some l =>
        simp only
        rw [if_neg (fun h => hl (by rw [hg, h]))]
    · exact UnmarshalJSON_not_quoted d c cs hc

/-- C7 (amended). For every non-empty token whose first and last bytes are not both the
quote character, that `strconv.Atoi` rejects, and that is neither a JSON object nor the
JSON literal `null` (each possibly surrounded by white space), `UnmarshalJSON` returns an
error and leaves the receiver as it was; it does not report success. -/
theorem UnmarshalJSON_unrecognised (d : DynamicDataValue) (b : List UInt8) (e : NumError)
    (hne : b ≠ []) (hq : ¬ (b.head? = some quote ∧ b.getLast? = some quote))
    (hi : Atoi b = .error e) (ho : tokenClass b ≠ .object) (hn : tokenClass b ≠ .null) :
    ∃ err, UnmarshalJSON d b = .returned d (some err) := by
  rw [UnmarshalJSON_unquoted d b hne hq]
  unfold unmarshalOther
  rw [hi]
  simp only
  unfold tokenClass at ho hn
  unfold Unmarshal
  cases hp : parseJSON b with
  | error x => exact ⟨_, rfl⟩
  | ok v =>
    rw [hp] at ho hn
    cases v with
    | null => exact absurd rfl hn
    | object ms => exact absurd rfl ho
    | bool x => exact ⟨_, rfl⟩
    | number x => exact ⟨_, rfl⟩
    | string x => exact ⟨_, rfl⟩
    | array x => exact ⟨_, rfl⟩

theorem UnmarshalJSON_unrecognised_witness :
    (∃ err, UnmarshalJSON DynamicDataValue.zero (bytes "3.14") =
      .returned DynamicDataValue.zero (some err)) ∧
    (∃ err, UnmarshalJSON DynamicDataValue.zero (bytes "true") =
      .returned DynamicDataValue.zero (some err)) ∧
    (∃ err, UnmarshalJSON DynamicDataValue.zero (bytes "[1]") =
      .returned DynamicDataValue.zero (some err)) ∧
    (∃ err, UnmarshalJSON DynamicDataValue.zero (bytes "\"abc") =
      .returned DynamicDataValue.zero (some err)) :=
  ⟨UnmarshalJSON_unrecognised DynamicDataValue.zero (bytes "3.14") .errSyntax (by decide)
      (by decide) (by decide) (by decide) (by decide),
   UnmarshalJSON_unrecognised DynamicDataValue.zero (bytes "true") .errSyntax (by decide)
      (by decide) (by decide) (by decide) (by decide),
   UnmarshalJSON_unrecognised DynamicDataValue.zero (bytes "[1]") .errSyntax (by decide)
      (by decide) (by decide) (by decide) (by decide),
   UnmarshalJSON_unrecognised DynamicDataValue.zero (bytes "\"abc") .errSyntax (by decide)
      (by decide) (by decide) (by decide) (by decide)⟩

/-- C7 (counterexample). The token `null` is not delimited by quotes, is not an integer
literal and is not a JSON object, yet `UnmarshalJSON` reports success on it, with `Type`
"DataValueFields" and an all-default `DataValueFields`: `json.Unmarshal` of `null` into a
struct has no effect and returns no error. -/
theorem null_token_counterexample :
    ¬ ((bytes "null").head? = some quote ∧ (bytes "null").getLast? = some quote) ∧
    isIntLiteral (bytes "null") = false ∧
    Atoi (bytes "null") = .error .errSyntax ∧
    tokenClass (bytes "null") = .null ∧
    UnmarshalJSON DynamicDataValue.zero (bytes "null") =
      .returned
        { DynamicDataValue.zero with
          Type_ := bytes "DataValueFields", Data := .dataValueFields DataValueFields.zero }
        none := by
  refine ⟨by decide, by decide, by decide, by decide, by decide⟩

/-! ## The accessors -/

theorem find_entry {V : Type} (es : List (GoString × V)) (code : GoString) (x : V)
    (hnd : (es.map Prod.fst).Nodup) (hm : (code, x) ∈ es) :
    es.find? (fun e => decide (e.1 = code)) = some (code, x) := by
  induction es with
  | nil => simp at hm
  | cons a es ih =>
    rw [List.map_cons, List.nodup_cons] at hnd
    rcases List.mem_cons.mp hm with h | h
    · subst h
      simp
    · have hne : a.1 ≠ code := by
        intro heq
        apply hnd.1
        rw [heq]
        exact List.mem_map.mpr ⟨(code, x), h, rfl⟩
      rw [List.find?_cons]
      simp only [hne, decide_False]
      exact ih hnd.2 h

theorem find_absent {V : Type} (es : List (GoString × V)) (code : GoString)
    (h : code ∉ es.map Prod.fst) : es.find? (fun e => decide (e.1 = code)) = none := by
  rw [List.find?_eq_none]
  intro e he
  simp only [decide_eq_true_eq]
  intro heq
  exact h (List.mem_map.mpr ⟨e, he, heq⟩)

theorem GoMap_index_present {V : Type} (es : List (GoString × V)) (code : GoString) (x zero : V)
    (hnd : (es.map Prod.fst).Nodup) (hm : (code, x) ∈ es) :
    GoMap.index (some es) code zero = x := by
  unfold GoMap.index
  simp only [find_entry es code x hnd hm]

theorem GoMap_index_absent {V : Type} (m : GoMap V) (code : GoString) (zero : V)
    (h : m = none ∨ ∃ es, m = some es ∧ code ∉ es.map Prod.fst) :
    GoMap.index m code zero = zero := by
  rcases h with h | ⟨es, h, hc⟩
  · subst h; rfl
  · subst h
    unfold GoMap.index
    simp only [find_absent es code hc]

/-- C8. For every `Entity` and every language code, `GetLabel` returns the `Value` of the
entry of `Labels` stored under that code when the code is a key of `Labels` (the keys of a
map being distinct), and the empty string when it is not, the nil map included;
`GetDescription` does the same over `Descriptions`. -/
theorem GetLabel_GetDescription (e : Entity) (code : GoString) :
    (∀ es l, e.Labels = some es → (es.map Prod.fst).Nodup → (code, l) ∈ es →
      e.GetLabel code = l.Value) ∧
    ((e.Labels = none ∨ ∃ es, e.Labels = some es ∧ code ∉ es.map Prod.fst) →
      e.GetLabel code = []) ∧
    (∀ es x, e.Descriptions = some es → (es.map Prod.fst).Nodup → (code, x) ∈ es →
      e.GetDescription code = x.Value) ∧
    ((e.Descriptions = none ∨ ∃ es, e.Descriptions = some es ∧ code ∉ es.map Prod.fst) →
      e.GetDescription code = []) := by
  refine ⟨?_, ?_, ?_, ?_⟩
  · intro es l hL hnd hm
    unfold Entity.GetLabel
    rw [hL, GoMap_index_present es code l _ hnd hm]
  · intro h
    unfold Entity.GetLabel
    rw [GoMap_index_absent _ _ _ h]
    rfl
  · intro es x hD hnd hm
    unfold Entity.GetDescription
    rw [hD, GoMap_index_present es code x _ hnd hm]
  · intro h
    unfold Entity.GetDescription
    rw [GoMap_index_absent _ _ _ h]
    rfl

theorem GetLabel_GetDescription_witness :
    Entity.GetLabel
      { Entity.zero with
        Labels := some [(bytes "en", { Language := bytes "en", Value := bytes "cat",
                                        ForLanguage := [] })] }
      (bytes "en") = bytes "cat" ∧
    Entity.GetLabel
      { Entity.zero with
        Labels := some [(bytes "en", { Language := bytes "en", Value := bytes "cat",
                                        ForLanguage := [] })] }
      (bytes "fr") = [] ∧
    Entity.GetLabel Entity.zero (bytes "en") = [] ∧
    Entity.GetDescription
      { Entity.zero with
        Descriptions := some [(bytes "en", { Language := bytes "en", Value := bytes "pet",
                                              ForLanguage := [] })] }
      (bytes "en") = bytes "pet" ∧
    Entity.GetDescription Entity.zero (bytes "en") = [] :=
  ⟨(GetLabel_GetDescription _ (bytes "en")).1 _ _ rfl (by decide) (List.mem_singleton.mpr rfl),
   (GetLabel_GetDescription _ (bytes "fr")).2.1 (Or.inr ⟨_, rfl, by decide⟩),
   (GetLabel_GetDescription Entity.zero (bytes "en")).2.1 (Or.inl rfl),
   (GetLabel_GetDescription _ (bytes "en")).2.2.1 _ _ rfl (by decide)
      (List.mem_singleton.mpr rfl),
   (GetLabel_GetDescription Entity.zero (bytes "en")).2.2.2 (Or.inl rfl)⟩

end GoWikidata
